import Mathlib

/-!
# Verification of the vimlogo polygon bevel-and-illuminate pipeline

Shallow embedding of the illumination engine (`src/vim_logo/illumination.py`,
`src/vim_logo/vec3.py`), the bevel geometry helpers (`src/vimlogo/letter_v.py`,
`src/vim_logo/letter_v.py`), the polygon compositor (`src/vimlogo/glyphs.py`)
and the path serializer / reference-path parser (`src/vimlogo/glyphs.py`,
`src/vim_logo/reference_paths.py`).

Python floats are embedded as exact reals (`ℝ`); code that can raise an
exception is embedded with `Option`.  Python strings are embedded as `List
Char` (for the serializer/parser, whose coordinates are embedded as `ℚ`,
exact on every input the theorems quantify over).  External collaborators
(`vec2_math`, `basic_colormath`, `svg_ultralight.format_number`, shapely's
region algebra) are embedded from their documented interface semantics, which
is how the spec treats them (consumed interfaces).
-/

/-! ## 3D vectors — `src/vim_logo/vec3.py` -/

/-- A 3-component vector, embedding the Python `Vec3 = tuple[float, float, float]`. -/
@[ext]
structure Vec3 where
  x : ℝ
  y : ℝ
  z : ℝ

/-- `vec3._get_magnitude`: euclidean norm. -/
noncomputable def Vec3.get_magnitude (v : Vec3) : ℝ :=
  Real.sqrt (v.x ^ 2 + v.y ^ 2 + v.z ^ 2)

open Classical in
/-- `vec3.normalize`: raises `ValueError` (here `none`) when the magnitude is 0. -/
noncomputable def Vec3.normalize (v : Vec3) : Option Vec3 :=
  if Vec3.get_magnitude v = 0 then none
  else some ⟨v.x / Vec3.get_magnitude v, v.y / Vec3.get_magnitude v,
    v.z / Vec3.get_magnitude v⟩

/-- `vec3.multiply`: component-wise product. -/
def Vec3.multiply (a b : Vec3) : Vec3 := ⟨a.x * b.x, a.y * b.y, a.z * b.z⟩

/-- `vec3.scale`. -/
def Vec3.scale (v : Vec3) (scalar : ℝ) : Vec3 :=
  ⟨v.x * scalar, v.y * scalar, v.z * scalar⟩

/-- `vec3.add`. -/
def Vec3.add (a b : Vec3) : Vec3 := ⟨a.x + b.x, a.y + b.y, a.z + b.z⟩

/-- `vec3.vsum`: component-wise sum of a list of vectors (the Python variadic
`vsum(*vectors)` summing each `zip` column). -/
def Vec3.vsum (vs : List Vec3) : Vec3 :=
  ⟨(vs.map Vec3.x).sum, (vs.map Vec3.y).sum, (vs.map Vec3.z).sum⟩

/-- `vec3.subtract`. -/
def Vec3.subtract (a b : Vec3) : Vec3 := ⟨a.x - b.x, a.y - b.y, a.z - b.z⟩

/-- `vec3.dot`. -/
def Vec3.dot (a b : Vec3) : ℝ := a.x * b.x + a.y * b.y + a.z * b.z

/-- One component of `vec3.clamp` at the default bounds `min_val=0`, `max_val=1`
(the only bounds the illumination code uses): `min(max_val, max(min_val, x))`. -/
noncomputable def clamp01 (t : ℝ) : ℝ := min 1 (max 0 t)

/-- `vec3.clamp` at the default bounds `[0, 1]`. -/
noncomputable def Vec3.clamp (v : Vec3) : Vec3 := ⟨clamp01 v.x, clamp01 v.y, clamp01 v.z⟩

/-! ## Illumination engine — `src/vim_logo/illumination.py` -/

/-- The hard-coded viewer direction `_VIEWER = (0, 0, 1)`. -/
def VIEWER : Vec3 := ⟨0, 0, 1⟩

/-- `illumination.LightSource`: a constructed light-source state (color scaled
to `[0,1]` floats, direction normalized on construction). -/
structure LightSource where
  color : Vec3
  direction : Vec3

/-- `illumination.Material`: a constructed material state.  The Python `shine`
field is a float that every constructor sets to `1`; it is only ever used as
the exponent of a non-negative base, so it is embedded as a natural number. -/
@[ext]
structure Material where
  color : Vec3
  ambient : ℝ
  diffuse : ℝ
  specular : ℝ
  shine : ℕ

/-- `illumination.uniform_shading_model`.  The Python function mutates
`material.color` (clamping it); the embedding returns the updated material
together with the returned (unclamped) color. -/
noncomputable def uniform_shading_model (normal_vector : Vec3) (material : Material)
    (light_source : LightSource) : Material × Vec3 :=
  let material := { material with color := Vec3.clamp material.color }
  let I_a := material.color
  let I_d := material.color
  let I_s := light_source.color
  let k_a := material.ambient
  let k_d := material.diffuse
  let k_s := material.specular
  let N := normal_vector
  let L := light_source.direction
  let L_dot_N := Vec3.dot L N
  let R := Vec3.subtract (Vec3.scale N (2 * L_dot_N)) L
  let V := VIEWER
  let R_dot_V := Vec3.dot R V
  let a_term := Vec3.scale I_a k_a
  let d_term := Vec3.scale (Vec3.multiply I_d I_s) (k_d * max 0 L_dot_N)
  let s_term := Vec3.scale I_s (k_s * (max 0 R_dot_V) ^ material.shine)
  (material, Vec3.vsum [a_term, d_term, s_term])

/-- The per-light loop of `illumination.illuminate` (the list comprehension
`[uniform_shading_model(...) for light_source in light_sources]`), threading
the material state each call mutates. -/
noncomputable def shadeList (nh : Vec3) : Material → List LightSource → Material × List Vec3
  | m, [] => (m, [])
  | m, l :: ls =>
    let p := uniform_shading_model nh m l
    let q := shadeList nh p.1 ls
    (q.1, p.2 :: q.2)

/-- `illumination.illuminate` up to the final hex conversion: divides the
ambient weight by the light count (a `ZeroDivisionError`, hence `none`, for an
empty light list), normalizes the normal vector (`none` on a zero vector),
shades once per light, clamps the summed color, multiplies the ambient weight
back, and returns the clamped sum and the final material state. -/
noncomputable def illuminateCore (normal_vector : Vec3) (material : Material)
    (light_sources : List LightSource) : Option (Vec3 × Material) :=
  if light_sources.length = 0 then none
  else
    let m1 := { material with ambient := material.ambient / light_sources.length }
    match Vec3.normalize normal_vector with
    | none => none
    | some nh =>
      let p := shadeList nh m1 light_sources
      let sum_vector := Vec3.clamp (Vec3.vsum p.2)
      some (sum_vector, { p.1 with ambient := p.1.ambient * light_sources.length })

/-- One component of `basic_colormath.float_tuple_to_8bit_int_tuple` (external
collaborator): round to the nearest integer and bound to `[0, 255]`. -/
noncomputable def to8bit (r : ℝ) : ℕ := (max 0 (min 255 ⌊r + 1 / 2⌋)).toNat

/-- `illumination._intensity_to_rgb`: scale each channel by 255 and convert to
8-bit integers. -/
noncomputable def intensity_to_rgb (c : Vec3) : ℕ × ℕ × ℕ :=
  (to8bit (c.x * 255), to8bit (c.y * 255), to8bit (c.z * 255))

/-- Lower-case hex digit. -/
def hexDigitChar (n : ℕ) : Char :=
  if n < 10 then Char.ofNat (48 + n) else Char.ofNat (87 + n)

/-- Two lower-case hex digits of a byte. -/
def byte_to_hex (n : ℕ) : List Char := [hexDigitChar (n / 16), hexDigitChar (n % 16)]

/-- `basic_colormath.rgb_to_hex` (external collaborator): `"#rrggbb"`.
Python strings are embedded as `List Char`. -/
def rgb_to_hex (rgb : ℕ × ℕ × ℕ) : List Char :=
  '#' :: (byte_to_hex rgb.1 ++ byte_to_hex rgb.2.1 ++ byte_to_hex rgb.2.2)

/-- `illumination._intensity_to_hex`. -/
noncomputable def intensity_to_hex (c : Vec3) : List Char :=
  rgb_to_hex (intensity_to_rgb c)

/-- `illumination.illuminate`: the hex string it returns together with the
material state it leaves behind (the Python function mutates its `material`
argument). -/
noncomputable def illuminate (normal_vector : Vec3) (material : Material)
    (light_sources : List LightSource) : Option (List Char × Material) :=
  (illuminateCore normal_vector material light_sources).map
    (fun p => (intensity_to_hex p.1, p.2))

/-- C2 statement helper, written from the spec's words: sums the per-light
shading results with the material's ambient weight NOT divided by the light
count, clamps the sum to `[0,1]` per channel, converts to hex.  To be compared
with `illuminate`. -/
noncomputable def illuminate_spec_nodiv (n : Vec3) (m : Material)
    (ls : List LightSource) : Option (List Char) :=
  if ls.length = 0 then none
  else
    match Vec3.normalize n with
    | none => none
    | some nh =>
      some (intensity_to_hex (Vec3.clamp (Vec3.vsum
        (ls.map (fun l => (uniform_shading_model nh m l).2)))))


/-! ## Calibration — modelled from the spec (C3).

`src/vim_logo/diamond.py` imports `set_material_color` from
`vim_logo.illumination`, but the function is not present under `src/`.  The
definitions below are modelled from the spec: candidate material colors are
integer RGB triples in `[0,255]` installed as intensities `c/255`; the
achievable range is found by forcing the color to pure black `(0,0,0)` and
pure white `(255,255,255)`; a goal outside the range raises
`IlluminationRangeError` reporting both bounds and the goal; otherwise an
incremental integer grid search starts at `(0,0,0)` and, on each iteration,
increments every channel whose illuminated result is still below the goal
(per spec §9 the search is pure: it probes material copies).  The spec's
unbounded `while` loop is embedded with fuel `766 = 3*255 + 1`, which the
termination theorem proves sufficient. -/

/-- Modelled from the spec: the error payload of `IlluminationRangeError`
("message must report both bounds and the goal"). -/
structure IlluminationRangeErr where
  low : ℕ × ℕ × ℕ
  high : ℕ × ℕ × ℕ
  goal : ℕ × ℕ × ℕ

/-- Modelled from the spec: `material_with_color(C)` — the material with the
candidate 8-bit color installed as intensities. -/
noncomputable def materialWithRGB (m : Material) (c : ℕ × ℕ × ℕ) : Material :=
  { m with color := ⟨(c.1 : ℝ) / 255, (c.2.1 : ℝ) / 255, (c.2.2 : ℝ) / 255⟩ }

/-- Modelled from the spec: one calibration probe — `illuminate` with the
candidate color, decoded back to the 8-bit RGB triple (the hex encoding of
`illuminate` is `rgb_to_hex` of exactly this triple). -/
noncomputable def illumRGB (n : Vec3) (m : Material) (ls : List LightSource)
    (c : ℕ × ℕ × ℕ) : Option (ℕ × ℕ × ℕ) :=
  (illuminateCore n (materialWithRGB m c) ls).map (fun p => intensity_to_rgb p.1)

/-- Component-wise `≤` on RGB triples. -/
def rgbLE (a b : ℕ × ℕ × ℕ) : Prop :=
  a.1 ≤ b.1 ∧ a.2.1 ≤ b.2.1 ∧ a.2.2 ≤ b.2.2

instance instDecidableRgbLE (a b : ℕ × ℕ × ℕ) : Decidable (rgbLE a b) := by
  unfold rgbLE
  exact inferInstance

/-- Modelled from the spec: "for each channel where the result is still below
goal, increment that channel by 1". -/
def bumpChannel (c r goal : ℕ × ℕ × ℕ) : ℕ × ℕ × ℕ :=
  (if r.1 < goal.1 then c.1 + 1 else c.1,
   if r.2.1 < goal.2.1 then c.2.1 + 1 else c.2.1,
   if r.2.2 < goal.2.2 then c.2.2 + 1 else c.2.2)

/-- Modelled from the spec: the incremental grid-search loop ("repeatedly
illuminate ... stop when all channels meet or exceed goal"), with fuel. -/
noncomputable def calibLoop (n : Vec3) (m : Material) (ls : List LightSource)
    (goal : ℕ × ℕ × ℕ) : ℕ → ℕ × ℕ × ℕ → Option (ℕ × ℕ × ℕ)
  | 0, _ => none
  | fuel + 1, c =>
    match illumRGB n m ls c with
    | none => none
    | some r =>
      if rgbLE goal r then some c
      else calibLoop n m ls goal fuel (bumpChannel c r goal)

/-- Modelled from the spec: `calibrate_material_color` / `set_material_color`:
evaluate the achievable range at pure black and pure white; raise
`IlluminationRangeError` when the range does not bracket the goal; otherwise
run the grid search from `(0,0,0)`. -/
noncomputable def set_material_color (n : Vec3) (m : Material)
    (ls : List LightSource) (goal : ℕ × ℕ × ℕ) :
    Option (Except IlluminationRangeErr (ℕ × ℕ × ℕ)) :=
  match illumRGB n m ls (0, 0, 0), illumRGB n m ls (255, 255, 255) with
  | some low, some high =>
    if rgbLE low goal ∧ rgbLE goal high then
      (calibLoop n m ls goal 766 (0, 0, 0)).map Except.ok
    else some (Except.error ⟨low, high, goal⟩)
  | _, _ => none

/-- One light's contribution to one color channel of the shading model, as a
function of that channel of the material color (`ci`): the channels of
`uniform_shading_model` are independent of each other. -/
noncomputable def chanShade (nh : Vec3) (ka kd ks : ℝ) (sh : ℕ) (l : LightSource)
    (lc : ℝ) (ci : ℝ) : ℝ :=
  clamp01 ci * ka + clamp01 ci * lc * (kd * max 0 (Vec3.dot l.direction nh)) +
    lc * (ks * (max 0 (Vec3.dot
      (Vec3.subtract (Vec3.scale nh (2 * Vec3.dot l.direction nh)) l.direction)
      VIEWER)) ^ sh)

/-- One color channel of a full `illumRGB` probe as a function of that channel
of the candidate color. -/
noncomputable def chanOut (nh : Vec3) (ka kd ks : ℝ) (sh : ℕ) (ls : List LightSource)
    (pick : LightSource → ℝ) (ci : ℝ) : ℕ :=
  to8bit (clamp01 ((ls.map (fun l => chanShade nh ka kd ks sh l (pick l) ci)).sum) * 255)


/-! ## 2D vectors — external collaborator `vec2_math` (spec §2 "VectorMath"),
embedded from its consumed interface: standard-form lines `Ax + By + C = 0`
through two points, `None` line intersection for zero determinant, vectors
rescaled to a requested norm, and `atan2(cross, dot)` signed angles
(`atan2(y, x)` is `Complex.arg (x + y*I)`). -/

/-- A 2-component vector / point (`tuple[float, float]`). -/
@[ext]
structure Vec2 where
  x : ℝ
  y : ℝ

/-- `vec2.vsub`. -/
def Vec2.vsub (a b : Vec2) : Vec2 := ⟨a.x - b.x, a.y - b.y⟩

/-- `vec2.vadd`. -/
def Vec2.vadd (a b : Vec2) : Vec2 := ⟨a.x + b.x, a.y + b.y⟩

/-- `vec2.vscale`. -/
def Vec2.vscale (v : Vec2) (s : ℝ) : Vec2 := ⟨v.x * s, v.y * s⟩

/-- 2D dot product. -/
def Vec2.dot (a b : Vec2) : ℝ := a.x * b.x + a.y * b.y

/-- 2D cross product (z-component). -/
def Vec2.cross (a b : Vec2) : ℝ := a.x * b.y - a.y * b.x

/-- `vec2.get_norm`. -/
noncomputable def Vec2.get_norm (v : Vec2) : ℝ := Real.sqrt (v.x ^ 2 + v.y ^ 2)

/-- `vec2.set_norm`: scale a vector to the requested norm. -/
noncomputable def Vec2.set_norm (v : Vec2) (norm : ℝ) : Vec2 :=
  Vec2.vscale v (norm / Vec2.get_norm v)

/-- `vec2.get_signed_angle`: `atan2(cross(a,b), dot(a,b))`, the signed angle
from `a` to `b` in `(-π, π]`. -/
noncomputable def Vec2.get_signed_angle (a b : Vec2) : ℝ :=
  Complex.arg ⟨Vec2.dot a b, Vec2.cross a b⟩

/-- `vec2.get_standard_form`: `(A, B, C)` with `Ax + By + C = 0` through the
segment's two points. -/
def Vec2.get_standard_form (seg : Vec2 × Vec2) : ℝ × ℝ × ℝ :=
  (seg.2.y - seg.1.y, seg.1.x - seg.2.x,
    -((seg.2.y - seg.1.y) * seg.1.x + (seg.1.x - seg.2.x) * seg.1.y))

open Classical in
/-- `vec2.get_line_intersection`: `None` when the determinant vanishes
(parallel or coincident lines), otherwise the Cramer solution. -/
noncomputable def Vec2.get_line_intersection (l1 l2 : ℝ × ℝ × ℝ) : Option Vec2 :=
  if l1.1 * l2.2.1 - l2.1 * l1.2.1 = 0 then none
  else some ⟨(l1.2.1 * l2.2.2 - l2.2.1 * l1.2.2) / (l1.1 * l2.2.1 - l2.1 * l1.2.1),
    (l1.2.2 * l2.1 - l2.2.2 * l1.1) / (l1.1 * l2.2.1 - l2.1 * l1.2.1)⟩

/-- `letter_v._get_abcd_intersection` (identical in both `vimlogo` and
`vim_logo` copies): the `ValueError` "rays are parallel or coincident" is
embedded as `none`. -/
noncomputable def get_abcd_intersection (seg_ab seg_cd : Vec2 × Vec2) : Option Vec2 :=
  Vec2.get_line_intersection (Vec2.get_standard_form seg_ab)
    (Vec2.get_standard_form seg_cd)

/-- `vim_logo.letter_v._get_ray_intersection`: each ray is a point and a
direction vector; the carried lines go through `p` and `p + v`. -/
noncomputable def get_ray_intersection (ray_a ray_b : Vec2 × Vec2) : Option Vec2 :=
  Vec2.get_line_intersection
    (Vec2.get_standard_form (ray_a.1, Vec2.vadd ray_a.1 ray_a.2))
    (Vec2.get_standard_form (ray_b.1, Vec2.vadd ray_b.1 ray_b.2))

/-- `p` lies on the line through `a` and `b` (collinearity). -/
def onLine (a b p : Vec2) : Prop :=
  Vec2.cross (Vec2.vsub b a) (Vec2.vsub p a) = 0

/-! ## Right-angle beveling — `src/vimlogo/letter_v.py`, `_bevel_90_turns` -/

/-- `pts[-1:] + pts[:-1]`. -/
def rotRight {α : Type} (l : List α) : List α :=
  l.drop (l.length - 1) ++ l.take (l.length - 1)

/-- `pts[1:] + pts[:1]`. -/
def rotLeft {α : Type} (l : List α) : List α := l.drop 1 ++ l.take 1

/-- The loop condition of `_bevel_90_turns`:
`math.isclose(vec2.get_signed_angle(vec_ba, vec_cb), math.pi / 2)` with
`vec_ba = set_norm(a - b, bevel)` and `vec_cb = set_norm(b - c, bevel)`,
embedded as exact-real equality (the claim's "within floating-point
tolerance, exactly a right angle"). -/
def right_angle_turn (sml_bev : ℝ) (a b c : Vec2) : Prop :=
  Vec2.get_signed_angle (Vec2.set_norm (Vec2.vsub a b) sml_bev)
    (Vec2.set_norm (Vec2.vsub b c) sml_bev) = Real.pi / 2

open Classical in
/-- The per-vertex body of `_bevel_90_turns`: the one or two points appended
for the vertex triple `(a, b, c)`. -/
noncomputable def bevel_step (sml_bev : ℝ) (abc : Vec2 × Vec2 × Vec2) : List Vec2 :=
  let a := abc.1
  let b := abc.2.1
  let c := abc.2.2
  let vec_ba := Vec2.set_norm (Vec2.vsub a b) sml_bev
  let vec_cb := Vec2.set_norm (Vec2.vsub b c) sml_bev
  if right_angle_turn sml_bev a b c then
    [Vec2.vadd b vec_ba, Vec2.vsub b vec_cb]
  else [b]

/-- `letter_v._bevel_90_turns`: iterate over the cyclic triples
`zip(pts[-1:] + pts[:-1], pts, pts[1:] + pts[:1])`, appending the beveled
points.  The Python function hard-codes the module constant `SML_BEV` as the
bevel size; the spec's operation `bevel_right_angle_turns(polygon,
bevel_size)` takes it as the parameter `sml_bev`. -/
noncomputable def bevel_90_turns (sml_bev : ℝ) (pts : List Vec2) : List Vec2 :=
  ((rotRight pts).zip (pts.zip (rotLeft pts))).foldl
    (fun new_pts abc => new_pts ++ bevel_step sml_bev abc) []

/-- Unit direction of a vector (used only to state the spec's "offset ...
along the unit directions of the incoming and outgoing edges"). -/
noncomputable def unit_dir (v : Vec2) : Vec2 := Vec2.vscale v (Vec2.get_norm v)⁻¹


/-! ## Polygon compositor — `src/vimlogo/glyphs.py`, `get_polygon_union`.

shapely's region algebra (external collaborator) is embedded as sets of
points of the plane: `unary_union` is set union, `-` is set difference, and
`make_valid` repairs a polygon's representation without changing the region
it denotes; `unary_union([])` is the empty region. -/

/-- A plane region (the region denoted by a shapely geometry). -/
abbrev Region := Set (ℝ × ℝ)

/-- The loop of `get_polygon_union`: starting from `unary_union([])` and
enumerating from index `i`, subtract polygons whose index is in `negative`
and union in the others. -/
def unionLoop (negative : Finset ℕ) : ℕ → Region → List Region → Region
  | _, acc, [] => acc
  | i, acc, p :: ps =>
    unionLoop negative (i + 1) (if i ∈ negative then acc \ p else acc ∪ p) ps

/-- `glyphs.get_polygon_union` at region level. -/
def get_polygon_union (pnt_lists : List Region) (negative : Finset ℕ) : Region :=
  unionLoop negative 0 ∅ pnt_lists

/-- Written from the spec's words for C5, first half: "the boolean union of
all polygons not flagged for subtraction". -/
def spec_pos_union (negative : Finset ℕ) : ℕ → List Region → Region
  | _, [] => ∅
  | i, p :: ps =>
    if i ∈ negative then spec_pos_union negative (i + 1) ps
    else p ∪ spec_pos_union negative (i + 1) ps

/-- Written from the spec's words for C5, second half: "then subtract ... in
input order (each subtraction polygon is individually subtracted)". -/
def spec_sub_each (negative : Finset ℕ) : ℕ → Region → List Region → Region
  | _, acc, [] => acc
  | i, acc, p :: ps =>
    spec_sub_each negative (i + 1) (if i ∈ negative then acc \ p else acc) ps

/-- The spec's formula for C5: union of the unflagged polygons, minus each
flagged polygon in input order.  To be compared with `get_polygon_union`. -/
def get_polygon_union_spec (pnt_lists : List Region) (negative : Finset ℕ) : Region :=
  spec_sub_each negative 0 (spec_pos_union negative 0 pnt_lists) pnt_lists


/-! ## Path serializer and reference-path parser — C6.

`src/vimlogo/glyphs.py` `_new_data_string_single` and
`src/vim_logo/reference_paths.py` `_get_pts_from_datastring`.  Python strings
are embedded as `List Char`; the float coordinates as `ℚ` (exact for every
coordinate the round-trip claim quantifies over). -/

/-- One decimal digit character. -/
def digitChar (n : ℕ) : Char := Char.ofNat (48 + n % 10)

/-- Decimal digits of `n`, least significant first (`fuel`-bounded; `fuel`
is chosen as `n + 1`, sufficient because `n / 10 < n` for positive `n`). -/
def natDigitsRev : ℕ → ℕ → List Char
  | 0, _ => []
  | fuel + 1, n =>
    if n < 10 then [digitChar n] else digitChar (n % 10) :: natDigitsRev fuel (n / 10)

/-- Decimal representation of a natural number. -/
def natToChars (n : ℕ) : List Char := (natDigitsRev (n + 1) n).reverse

/-- Left-pad with `'0'` to length `k` (the fixed six-place fraction of
`"%0.6f"`). -/
def padZeros (k : ℕ) (cs : List Char) : List Char :=
  List.replicate (k - cs.length) '0' ++ cs

/-- Python `str.rstrip(c)`: drop trailing characters satisfying `p`. -/
def dropTrailing (p : Char → Bool) (cs : List Char) : List Char :=
  (cs.reverse.dropWhile p).reverse

/-- `svg_ultralight.format_number` (external collaborator): format with six
decimal places (`f"{num:0.6f}"`), then strip trailing zeros and a trailing
decimal point.  The exact rational is rounded half-up to six places here; on
coordinates that are exact six-place decimals (the only ones the serializer
theorems need exactly) every rounding convention agrees. -/
def format_number (q : ℚ) : List Char :=
  let n : ℤ := ⌊q * 1000000 + 1 / 2⌋
  let sign : List Char := if n < 0 then ['-'] else []
  let digits : List Char :=
    sign ++ natToChars (n.natAbs / 1000000) ++
      '.' :: padZeros 6 (natToChars (n.natAbs % 1000000))
  dropTrailing (fun c => c == '.') (dropTrailing (fun c => c == '0') digits)

/-- `glyphs._remove_identical_adjacent_values` (no key function): keep the
values that differ from their cyclic successor; if none survive, keep the
first value. -/
def remove_identical_adjacent (values : List (List Char × List Char)) :
    List (List Char × List Char) :=
  if values.length < 2 then values
  else if ((values.zip (values.drop 1 ++ values.take 1)).filter
      (fun p => decide (p.1 ≠ p.2))).map Prod.fst = [] then values.take 1
  else ((values.zip (values.drop 1 ++ values.take 1)).filter
      (fun p => decide (p.1 ≠ p.2))).map Prod.fst

/-- One iteration of the command-building loop of `_new_data_string_single`.
The Python loop appends to the list `commands` and mutates its last element;
here the command list is kept most-recent-first (the mutated element is the
head) and reversed at the end. -/
def data_string_step :
    List (List Char) → (List Char × List Char) × (List Char × List Char) →
      List (List Char)
  | [], _ => []
  | last :: before, p =>
    if p.1.1 = p.2.1 then
      if last.head? = some 'V' then ('V' :: p.2.2) :: before
      else ('V' :: p.2.2) :: last :: before
    else if p.1.2 = p.2.2 then
      if last.head? = some 'H' then ('H' :: p.2.1) :: before
      else ('H' :: p.2.1) :: last :: before
    else if last.head? = some 'M' ∨ last.head? = some 'L' then
      (last ++ ' ' :: p.2.1 ++ ',' :: p.2.2) :: before
    else
      ('L' :: p.2.1 ++ ',' :: p.2.2) :: last :: before

/-- Python `" ".join(...)`. -/
def joinWords : List (List Char) → List Char
  | [] => []
  | [c] => c
  | c :: cs => c ++ ' ' :: joinWords cs

/-- `glyphs._new_data_string_single`: format the points, drop identical
adjacent formatted tuples, emit `M`/`L`/`H`/`V` commands with run collapsing,
join with spaces and append `Z`.  An empty polygon raises `IndexError`
(`none`). -/
def new_data_string_single (pts : List (ℚ × ℚ)) : Option (List Char) :=
  let str_tuples := pts.map fun p => (format_number p.1, format_number p.2)
  match remove_identical_adjacent str_tuples with
  | [] => none
  | t0 :: rest =>
    let commands := ((t0 :: rest).zip rest).foldl data_string_step
      [('M' :: t0.1 ++ ',' :: t0.2)]
    some (joinWords commands.reverse ++ ['Z'])

/-- The word accumulator of Python `str.split()`: `cur` is the word being
built. -/
def splitWordsAux : List Char → List Char → List (List Char)
  | [], cur => if cur.isEmpty then [] else [cur]
  | c :: cs, cur =>
    if c = ' ' then
      if cur.isEmpty then splitWordsAux cs [] else cur :: splitWordsAux cs []
    else splitWordsAux cs (cur ++ [c])

/-- Python `str.split()` (split on whitespace runs, no empty words). -/
def splitWords (cs : List Char) : List (List Char) := splitWordsAux cs []

/-- Python `str.split(sep)` for a single-character separator: parts between
separators, empties preserved. -/
def splitOnChar (sep : Char) : List Char → List (List Char)
  | [] => [[]]
  | c :: rest =>
    if c = sep then [] :: splitOnChar sep rest
    else
      match splitOnChar sep rest with
      | [] => [[c]]
      | w :: ws => (c :: w) :: ws

/-- Python `needle in haystack` on strings: contiguous substring test. -/
def isSubstring (needle : List Char) : List Char → Bool
  | [] => needle.isEmpty
  | c :: rest => needle.isPrefixOf (c :: rest) || isSubstring needle rest

/-- Numeric value of a digit character. -/
def digitVal (c : Char) : ℕ := c.toNat - 48

/-- Value of a digit string. -/
def digitsToNat (cs : List Char) : ℕ := cs.foldl (fun acc c => 10 * acc + digitVal c) 0

/-- Python `float(...)` on the decimal subset that occurs in path data
(optional sign, digits, at most one decimal point); anything else raises
`ValueError` (`none`). -/
def parseFloat (s : List Char) : Option ℚ :=
  let sign : ℚ := if s.head? = some '-' then -1 else 1
  let cs := if s.head? = some '-' ∨ s.head? = some '+' then s.tail else s
  match splitOnChar '.' cs with
  | [ip] =>
    if ip.all Char.isDigit ∧ ip ≠ [] then some (sign * digitsToNat ip) else none
  | [ip, fp] =>
    if ip.all Char.isDigit ∧ fp.all Char.isDigit ∧ (ip ≠ [] ∨ fp ≠ []) then
      some (sign * ((digitsToNat ip : ℚ) + (digitsToNat fp : ℚ) / (10 : ℚ) ^ fp.length))
    else none
  | _ => none

/-- One word of `reference_paths._get_pts_from_datastring`: command words
(substrings of `"MLHVZ"`, as Python's `in` tests) update the current command;
other words are consumed according to the current command; a float-parse or
empty-`pts` indexing failure raises (`none`). -/
def parse_step (st : List Char × List (ℚ × ℚ)) (word : List Char) :
    Option (List Char × List (ℚ × ℚ)) :=
  if isSubstring word ['M', 'L', 'H', 'V', 'Z'] then some (word, st.2)
  else if isSubstring st.1 ['M', 'L'] then
    match splitOnChar ',' word with
    | [xs, ys] =>
      match parseFloat xs, parseFloat ys with
      | some x, some y => some (st.1, st.2 ++ [(x, y)])
      | _, _ => none
    | _ => none
  else if st.1 = ['H'] then
    match parseFloat word, st.2.getLast? with
    | some x, some lastp => some (st.1, st.2 ++ [(x, lastp.2)])
    | _, _ => none
  else if st.1 = ['V'] then
    match parseFloat word, st.2.getLast? with
    | some y, some lastp => some (st.1, st.2 ++ [(lastp.1, y)])
    | _, _ => none
  else some st

/-- `reference_paths._get_pts_from_datastring`: split into words, fold the
command interpreter (initial command `"M"`), then drop the final point when
it repeats the first (`pts[0]` raises `IndexError` on an empty result). -/
def get_pts_from_datastring (datastring : List Char) : Option (List (ℚ × ℚ)) := do
  let st ← (splitWords datastring).foldlM parse_step (['M'], [])
  match st.2 with
  | [] => none
  | p0 :: _ => if st.2.getLast? = some p0 then some st.2.dropLast else some st.2

/-- C1 statement helper: the claim's `ambient_term + diffuse_term +
specular_term` with the clamped material color — written from the spec's
formulas, to be compared with `uniform_shading_model`. -/
noncomputable def shade_term_sum (n : Vec3) (m : Material) (l : LightSource) : Vec3 :=
  Vec3.add (Vec3.scale (Vec3.clamp m.color) m.ambient)
    (Vec3.add
      (Vec3.scale (Vec3.multiply (Vec3.clamp m.color) l.color)
        (m.diffuse * max 0 (Vec3.dot l.direction n)))
      (Vec3.scale l.color
        (m.specular *
          (max 0 (Vec3.dot
            (Vec3.subtract (Vec3.scale n (2 * Vec3.dot l.direction n)) l.direction)
            ⟨0, 0, 1⟩)) ^ m.shine)))

/-- C1, confirmed: `uniform_shading_model` returns exactly
`ambient_term + diffuse_term + specular_term` where
`ambient_term = clamp(material.color) * material.ambient`,
`diffuse_term = (clamp(material.color) ⊙ light.color) * material.diffuse *
max(0, L·N)`, and `specular_term = light.color * material.specular *
max(0, (2(L·N)N - L)·(0,0,1))^shine`; the material color is clamped to `[0,1]`
per channel before use, and the result is the bare sum (not clamped). -/
theorem uniform_shading_model_eq_term_sum (n : Vec3) (m : Material) (l : LightSource) :
    (uniform_shading_model n m l).2 = shade_term_sum n m l := by
  simp only [uniform_shading_model, shade_term_sum, Vec3.vsum, Vec3.add, Vec3.scale,
    Vec3.multiply, Vec3.subtract, Vec3.dot, Vec3.clamp, VIEWER, List.map_cons,
    List.map_nil, List.sum_cons, List.sum_nil]
  ext <;> ring

/-- C10, confirmed: calling `illuminate` with zero light sources never returns
a hex color — the ambient weight is divided by the light count `0`, which
raises (`ZeroDivisionError`), embedded as `none`. -/
theorem illuminate_no_lights_fails (n : Vec3) (m : Material) :
    illuminate n m [] = none := by
  simp [illuminate, illuminateCore]

/-! ## Illumination helper lemmas -/

theorem clamp01_idem (t : ℝ) : clamp01 (clamp01 t) = clamp01 t := by
  unfold clamp01
  rcases le_total t 0 with h | h
  · rw [max_eq_left h]
    norm_num
  · rw [max_eq_right h]
    rcases le_total t 1 with h1 | h1
    · rw [min_eq_right h1, max_eq_right h, min_eq_right h1]
    · rw [min_eq_left h1]
      norm_num

theorem Vec3.clamp_clamp (v : Vec3) : Vec3.clamp (Vec3.clamp v) = Vec3.clamp v := by
  simp [Vec3.clamp, clamp01_idem]

theorem uniform_shading_model_fst (nh : Vec3) (m : Material) (l : LightSource) :
    (uniform_shading_model nh m l).1 = { m with color := Vec3.clamp m.color } := rfl

theorem uniform_shading_model_clamped (nh : Vec3) (m : Material) (l : LightSource) :
    uniform_shading_model nh { m with color := Vec3.clamp m.color } l =
      uniform_shading_model nh m l := by
  simp [uniform_shading_model, Vec3.clamp_clamp]

theorem shadeList_snd (nh : Vec3) (m : Material) (ls : List LightSource) :
    (shadeList nh m ls).2 = ls.map (fun l => (uniform_shading_model nh m l).2) := by
  induction ls generalizing m with
  | nil => rfl
  | cons l ls ih =>
    show (uniform_shading_model nh m l).2 ::
      (shadeList nh (uniform_shading_model nh m l).1 ls).2 = _
    rw [uniform_shading_model_fst, ih]
    simp only [List.map_cons]
    exact congrArg _ (List.map_congr_left fun l2 _ => by
      rw [uniform_shading_model_clamped])

theorem shadeList_fst (nh : Vec3) (m : Material) (ls : List LightSource) (h : ls ≠ []) :
    (shadeList nh m ls).1 = { m with color := Vec3.clamp m.color } := by
  induction ls generalizing m with
  | nil => exact absurd rfl h
  | cons l ls ih =>
    cases ls with
    | nil => rfl
    | cons l2 ls2 =>
      show (shadeList nh (uniform_shading_model nh m l).1 (l2 :: ls2)).1 = _
      rw [uniform_shading_model_fst, ih _ (by simp)]
      simp [Vec3.clamp_clamp]

/-! ## Concrete evaluation helpers for the illumination pipeline -/

theorem normalize_unit_z : Vec3.normalize ⟨0, 0, 1⟩ = some ⟨0, 0, 1⟩ := by
  have hm : Vec3.get_magnitude ⟨0, 0, 1⟩ = 1 := by
    show Real.sqrt ((0:ℝ) ^ 2 + 0 ^ 2 + 1 ^ 2) = 1
    rw [show (0:ℝ) ^ 2 + 0 ^ 2 + 1 ^ 2 = 1 by norm_num]
    exact Real.sqrt_one
  rw [Vec3.normalize, hm]
  norm_num

theorem usm_eval0 (nh : Vec3) (a : ℝ) (sh : ℕ) :
    uniform_shading_model nh ⟨⟨1, 1, 1⟩, a, 0, 0, sh⟩ ⟨⟨0, 0, 0⟩, ⟨0, 0, 1⟩⟩ =
      (⟨⟨1, 1, 1⟩, a, 0, 0, sh⟩, ⟨a, a, a⟩) := by
  unfold uniform_shading_model
  simp only [Vec3.clamp, clamp01, Vec3.dot, Vec3.scale, Vec3.subtract, Vec3.multiply,
    Vec3.vsum, VIEWER, List.map_cons, List.map_nil, List.sum_cons, List.sum_nil]
  norm_num

theorem to8bit_coe (k : ℕ) (hk : k ≤ 255) : to8bit (k : ℝ) = k := by
  unfold to8bit
  have hf : ⌊(k : ℝ) + 1 / 2⌋ = (k : ℤ) := by
    rw [Int.floor_eq_iff]
    constructor
    · push_cast; linarith
    · push_cast; linarith
  rw [hf]
  have h1 : min (255 : ℤ) (k : ℤ) = (k : ℤ) := min_eq_right (by exact_mod_cast hk)
  rw [h1, max_eq_right (by positivity)]
  simp

theorem illuminate_two_lights_eval (a : ℝ) :
    illuminate ⟨0, 0, 1⟩ ⟨⟨1, 1, 1⟩, a, 0, 0, 1⟩
        [⟨⟨0, 0, 0⟩, ⟨0, 0, 1⟩⟩, ⟨⟨0, 0, 0⟩, ⟨0, 0, 1⟩⟩] =
      some (intensity_to_hex ⟨clamp01 a, clamp01 a, clamp01 a⟩,
        ⟨⟨1, 1, 1⟩, a, 0, 0, 1⟩) := by
  unfold illuminate illuminateCore
  rw [normalize_unit_z]
  simp only [List.length_cons, List.length_nil, Nat.cast_ofNat, shadeList]
  norm_num
  simp only [usm_eval0]
  norm_num
  have hv : Vec3.vsum [⟨a / 2, a / 2, a / 2⟩, ⟨a / 2, a / 2, a / 2⟩] = (⟨a, a, a⟩ : Vec3) := by
    unfold Vec3.vsum
    ext <;> simp
  rw [hv]
  rfl


theorem intensity_to_hex_const (q : ℕ) (hq : q ≤ 255) (r : ℝ) (hr : r * 255 = q) :
    intensity_to_hex ⟨r, r, r⟩ = rgb_to_hex (q, q, q) := by
  unfold intensity_to_hex intensity_to_rgb
  rw [show ((⟨r, r, r⟩ : Vec3).x) = r from rfl, show ((⟨r, r, r⟩ : Vec3).y) = r from rfl,
    show ((⟨r, r, r⟩ : Vec3).z) = r from rfl, hr, to8bit_coe q hq]

theorem spec_nodiv_two_lights_eval (a : ℝ) :
    illuminate_spec_nodiv ⟨0, 0, 1⟩ ⟨⟨1, 1, 1⟩, a, 0, 0, 1⟩
        [⟨⟨0, 0, 0⟩, ⟨0, 0, 1⟩⟩, ⟨⟨0, 0, 0⟩, ⟨0, 0, 1⟩⟩] =
      some (intensity_to_hex ⟨clamp01 (a + a), clamp01 (a + a), clamp01 (a + a)⟩) := by
  unfold illuminate_spec_nodiv
  rw [normalize_unit_z]
  simp only [List.length_cons, List.length_nil, List.map_cons, List.map_nil, usm_eval0]
  norm_num
  have hv : Vec3.vsum [⟨a, a, a⟩, ⟨a, a, a⟩] = (⟨a + a, a + a, a + a⟩ : Vec3) := by
    unfold Vec3.vsum
    ext <;> simp
  rw [hv]
  rfl

theorem illuminate_ambient_is_divided_cx :
    (illuminate ⟨0, 0, 1⟩ ⟨⟨1, 1, 1⟩, 2/5, 0, 0, 1⟩
        [⟨⟨0, 0, 0⟩, ⟨0, 0, 1⟩⟩, ⟨⟨0, 0, 0⟩, ⟨0, 0, 1⟩⟩]).map Prod.fst ≠
      illuminate_spec_nodiv ⟨0, 0, 1⟩ ⟨⟨1, 1, 1⟩, 2/5, 0, 0, 1⟩
        [⟨⟨0, 0, 0⟩, ⟨0, 0, 1⟩⟩, ⟨⟨0, 0, 0⟩, ⟨0, 0, 1⟩⟩] := by
  rw [illuminate_two_lights_eval, spec_nodiv_two_lights_eval]
  have h1 : clamp01 (2/5 : ℝ) = 2/5 := by
    unfold clamp01
    rw [max_eq_right (by norm_num), min_eq_right (by norm_num)]
  have h2 : clamp01 (2/5 + 2/5 : ℝ) = 4/5 := by
    unfold clamp01
    rw [show (2/5 + 2/5 : ℝ) = 4/5 by norm_num,
      max_eq_right (by norm_num), min_eq_right (by norm_num)]
  rw [h1, h2, intensity_to_hex_const 102 (by norm_num) (2/5) (by norm_num),
    intensity_to_hex_const 204 (by norm_num) (4/5) (by norm_num)]
  simp only [Option.map_some, ne_eq, Option.some.injEq]
  decide

theorem illuminate_eq_divided_sum (n : Vec3) (m : Material) (ls : List LightSource)
    (nh : Vec3) (hn : Vec3.normalize n = some nh) (hls : ls ≠ []) :
    (illuminate n m ls).map Prod.fst =
      some (intensity_to_hex (Vec3.clamp (Vec3.vsum (ls.map (fun l =>
        (uniform_shading_model nh { m with ambient := m.ambient / ls.length } l).2))))) := by
  have hlen : ls.length ≠ 0 := fun h0 => hls (List.length_eq_zero.mp h0)
  unfold illuminate illuminateCore
  rw [if_neg hlen, hn]
  simp [shadeList_snd]

theorem illuminate_restores_material (n : Vec3) (m : Material) (ls : List LightSource)
    (out : List Char × Material) (h : illuminate n m ls = some out) :
    out.2 = { m with color := Vec3.clamp m.color } := by
  unfold illuminate at h
  by_cases hlen : ls.length = 0
  · rw [show illuminateCore n m ls = none by unfold illuminateCore; rw [if_pos hlen]] at h
    simp at h
  · have hls : ls ≠ [] := fun h0 => hlen (by rw [h0]; rfl)
    unfold illuminateCore at h
    rw [if_neg hlen] at h
    cases hn : Vec3.normalize n with
    | none => rw [hn] at h; simp at h
    | some nh =>
      rw [hn] at h
      rw [Option.map_some'] at h
      injection h with h
      rw [← h]
      rw [show (shadeList nh { m with ambient := m.ambient / (ls.length : ℝ) } ls).1 =
        { { m with ambient := m.ambient / (ls.length : ℝ) } with
          color := Vec3.clamp ({ m with ambient := m.ambient / (ls.length : ℝ) } : Material).color }
        from shadeList_fst nh _ ls hls]
    
      have hc : ((m.ambient / (ls.length : ℝ)) * (ls.length : ℝ)) = m.ambient :=
        div_mul_cancel₀ _ (Nat.cast_ne_zero.mpr hlen)
      ext <;> simp [hc]

theorem illuminate_eq_divided_sum_witness :
    ([⟨⟨0, 0, 0⟩, ⟨0, 0, 1⟩⟩, ⟨⟨0, 0, 0⟩, ⟨0, 0, 1⟩⟩] : List LightSource) ≠ [] ∧
    (illuminate ⟨0, 0, 1⟩ ⟨⟨1, 1, 1⟩, 2/5, 0, 0, 1⟩
        [⟨⟨0, 0, 0⟩, ⟨0, 0, 1⟩⟩, ⟨⟨0, 0, 0⟩, ⟨0, 0, 1⟩⟩]).map Prod.fst =
      some (intensity_to_hex (Vec3.clamp (Vec3.vsum
        (([⟨⟨0, 0, 0⟩, ⟨0, 0, 1⟩⟩, ⟨⟨0, 0, 0⟩, ⟨0, 0, 1⟩⟩] : List LightSource).map (fun l =>
          (uniform_shading_model ⟨0, 0, 1⟩
            { (⟨⟨1, 1, 1⟩, 2/5, 0, 0, 1⟩ : Material) with
              ambient := (⟨⟨1, 1, 1⟩, 2/5, 0, 0, 1⟩ : Material).ambient /
                (([⟨⟨0, 0, 0⟩, ⟨0, 0, 1⟩⟩, ⟨⟨0, 0, 0⟩, ⟨0, 0, 1⟩⟩] :
                  List LightSource).length : ℝ) } l).2))))) :=
  ⟨by simp, illuminate_eq_divided_sum _ _ _ _ normalize_unit_z (by simp)⟩

theorem illuminate_restores_material_witness :
    ((intensity_to_hex ⟨clamp01 (2/5), clamp01 (2/5), clamp01 (2/5)⟩,
      (⟨⟨1, 1, 1⟩, 2/5, 0, 0, 1⟩ : Material)) : List Char × Material).2 =
      { (⟨⟨1, 1, 1⟩, 2/5, 0, 0, 1⟩ : Material) with
        color := Vec3.clamp (⟨⟨1, 1, 1⟩, 2/5, 0, 0, 1⟩ : Material).color } :=
  illuminate_restores_material _ _ _ _ (illuminate_two_lights_eval (2/5))

theorem usm_snd_eq (nh : Vec3) (m : Material) (l : LightSource) :
    (uniform_shading_model nh m l).2 =
      ⟨chanShade nh m.ambient m.diffuse m.specular m.shine l l.color.x m.color.x,
       chanShade nh m.ambient m.diffuse m.specular m.shine l l.color.y m.color.y,
       chanShade nh m.ambient m.diffuse m.specular m.shine l l.color.z m.color.z⟩ := by
  unfold uniform_shading_model chanShade
  simp only [Vec3.vsum, Vec3.clamp, Vec3.dot, Vec3.scale, Vec3.subtract, Vec3.multiply,
    List.map_cons, List.map_nil, List.sum_cons, List.sum_nil]
  ext <;> ring

theorem illumRGB_eq (n : Vec3) (m : Material) (ls : List LightSource) (nh : Vec3)
    (hn : Vec3.normalize n = some nh) (hls : ls ≠ []) (c : ℕ × ℕ × ℕ) :
    illumRGB n m ls c = some
      (chanOut nh (m.ambient / ls.length) m.diffuse m.specular m.shine ls
        (fun l => l.color.x) ((c.1 : ℝ) / 255),
       chanOut nh (m.ambient / ls.length) m.diffuse m.specular m.shine ls
        (fun l => l.color.y) ((c.2.1 : ℝ) / 255),
       chanOut nh (m.ambient / ls.length) m.diffuse m.specular m.shine ls
        (fun l => l.color.z) ((c.2.2 : ℝ) / 255)) := by
  have hlen : ls.length ≠ 0 := fun h0 => hls (List.length_eq_zero.mp h0)
  unfold illumRGB illuminateCore
  rw [if_neg hlen, hn, Option.map_some']
  unfold chanOut intensity_to_rgb materialWithRGB
  simp only [shadeList_snd, usm_snd_eq, Vec3.vsum, Vec3.clamp, List.map_map,
    Function.comp]
  rfl

theorem calibLoop_reaches (n : Vec3) (m : Material) (ls : List LightSource)
    (goal : ℕ × ℕ × ℕ) (F1 F2 F3 : ℕ → ℕ)
    (HF : ∀ c : ℕ × ℕ × ℕ, illumRGB n m ls c = some (F1 c.1, F2 c.2.1, F3 c.2.2))
    (H1 : goal.1 ≤ F1 255) (H2 : goal.2.1 ≤ F2 255) (H3 : goal.2.2 ≤ F3 255) :
    ∀ fuel c, c.1 ≤ 255 → c.2.1 ≤ 255 → c.2.2 ≤ 255 →
      765 - (c.1 + c.2.1 + c.2.2) < fuel →
      ∃ cr r, calibLoop n m ls goal fuel c = some cr ∧
        illumRGB n m ls cr = some r ∧ rgbLE goal r := by
  intro fuel
  induction fuel with
  | zero => intro c _ _ _ hf; omega
  | succ fuel ih =>
    intro c h1 h2 h3 hf
    have hstep : calibLoop n m ls goal (fuel + 1) c =
        if rgbLE goal (F1 c.1, F2 c.2.1, F3 c.2.2) then some c
        else calibLoop n m ls goal fuel
          (bumpChannel c (F1 c.1, F2 c.2.1, F3 c.2.2) goal) := by
      rw [show calibLoop n m ls goal (fuel + 1) c = (match illumRGB n m ls c with
        | none => none
        | some r => if rgbLE goal r then some c
            else calibLoop n m ls goal fuel (bumpChannel c r goal)) from rfl, HF c]
    by_cases hds : rgbLE goal (F1 c.1, F2 c.2.1, F3 c.2.2)
    · exact ⟨c, _, by rw [hstep, if_pos hds], HF c, hds⟩
    · have hb1 : F1 c.1 < goal.1 → c.1 < 255 := by
        intro hlt
        rcases Nat.lt_or_ge c.1 255 with h | h
        · exact h
        · rw [le_antisymm h1 h] at hlt; omega
      have hb2 : F2 c.2.1 < goal.2.1 → c.2.1 < 255 := by
        intro hlt
        rcases Nat.lt_or_ge c.2.1 255 with h | h
        · exact h
        · rw [le_antisymm h2 h] at hlt; omega
      have hb3 : F3 c.2.2 < goal.2.2 → c.2.2 < 255 := by
        intro hlt
        rcases Nat.lt_or_ge c.2.2 255 with h | h
        · exact h
        · rw [le_antisymm h3 h] at hlt; omega
      have hone : F1 c.1 < goal.1 ∨ F2 c.2.1 < goal.2.1 ∨ F3 c.2.2 < goal.2.2 := by
        by_contra hno
        push_neg at hno
        exact hds ⟨hno.1, hno.2.1, hno.2.2⟩
      rw [hstep, if_neg hds]
      refine ih (bumpChannel c (F1 c.1, F2 c.2.1, F3 c.2.2) goal) ?_ ?_ ?_ ?_
      · show (if F1 c.1 < goal.1 then c.1 + 1 else c.1) ≤ 255
        split_ifs with hx
        · have := hb1 hx; omega
        · omega
      · show (if F2 c.2.1 < goal.2.1 then c.2.1 + 1 else c.2.1) ≤ 255
        split_ifs with hx
        · have := hb2 hx; omega
        · omega
      · show (if F3 c.2.2 < goal.2.2 then c.2.2 + 1 else c.2.2) ≤ 255
        split_ifs with hx
        · have := hb3 hx; omega
        · omega
      · show 765 - ((if F1 c.1 < goal.1 then c.1 + 1 else c.1) +
          (if F2 c.2.1 < goal.2.1 then c.2.1 + 1 else c.2.1) +
          (if F3 c.2.2 < goal.2.2 then c.2.2 + 1 else c.2.2)) < fuel
        rcases hone with h | h | h <;> split_ifs <;> omega

theorem set_material_color_eq (n : Vec3) (m : Material) (ls : List LightSource)
    (goal low high : ℕ × ℕ × ℕ)
    (hl : illumRGB n m ls (0, 0, 0) = some low)
    (hh : illumRGB n m ls (255, 255, 255) = some high) :
    set_material_color n m ls goal =
      if rgbLE low goal ∧ rgbLE goal high then
        (calibLoop n m ls goal 766 (0, 0, 0)).map Except.ok
      else some (Except.error ⟨low, high, goal⟩) := by
  unfold set_material_color
  rw [hl, hh]

theorem set_material_color_spec (n : Vec3) (m : Material) (ls : List LightSource)
    (goal : ℕ × ℕ × ℕ) (nh : Vec3) (hn : Vec3.normalize n = some nh) (hls : ls ≠ []) :
    ∃ low high,
      illumRGB n m ls (0, 0, 0) = some low ∧
      illumRGB n m ls (255, 255, 255) = some high ∧
      ((rgbLE low goal ∧ rgbLE goal high) →
        ∃ c r, set_material_color n m ls goal = some (Except.ok c) ∧
          illumRGB n m ls c = some r ∧ rgbLE goal r) ∧
      (¬(rgbLE low goal ∧ rgbLE goal high) →
        set_material_color n m ls goal = some (Except.error ⟨low, high, goal⟩)) := by
  have hlow := illumRGB_eq n m ls nh hn hls (0, 0, 0)
  have hhigh := illumRGB_eq n m ls nh hn hls (255, 255, 255)
  refine ⟨_, _, hlow, hhigh, ?_, ?_⟩
  · rintro ⟨hl, hh⟩
    obtain ⟨cr, r, hcl, hr, hge⟩ := calibLoop_reaches n m ls goal
      (fun k => chanOut nh (m.ambient / ls.length) m.diffuse m.specular m.shine ls
        (fun l => l.color.x) ((k : ℝ) / 255))
      (fun k => chanOut nh (m.ambient / ls.length) m.diffuse m.specular m.shine ls
        (fun l => l.color.y) ((k : ℝ) / 255))
      (fun k => chanOut nh (m.ambient / ls.length) m.diffuse m.specular m.shine ls
        (fun l => l.color.z) ((k : ℝ) / 255))
      (fun c => illumRGB_eq n m ls nh hn hls c) hh.1 hh.2.1 hh.2.2
      766 (0, 0, 0) (by norm_num) (by norm_num) (by norm_num) (by norm_num)
    refine ⟨cr, r, ?_, hr, hge⟩
    rw [set_material_color_eq n m ls goal _ _ hlow hhigh, if_pos ⟨hl, hh⟩, hcl]
    rfl
  · intro hnot
    rw [set_material_color_eq n m ls goal _ _ hlow hhigh, if_neg hnot]

theorem set_material_color_spec_witness :
    ([(⟨⟨0, 0, 0⟩, ⟨0, 0, 1⟩⟩ : LightSource)] : List LightSource) ≠ [] ∧
    (∃ low high,
      illumRGB ⟨0, 0, 1⟩ ⟨⟨0, 0, 0⟩, 0, 0, 0, 1⟩ [⟨⟨0, 0, 0⟩, ⟨0, 0, 1⟩⟩]
        (0, 0, 0) = some low ∧
      illumRGB ⟨0, 0, 1⟩ ⟨⟨0, 0, 0⟩, 0, 0, 0, 1⟩ [⟨⟨0, 0, 0⟩, ⟨0, 0, 1⟩⟩]
        (255, 255, 255) = some high ∧
      ((rgbLE low (0, 0, 0) ∧ rgbLE (0, 0, 0) high) →
        ∃ c r, set_material_color ⟨0, 0, 1⟩ ⟨⟨0, 0, 0⟩, 0, 0, 0, 1⟩
            [⟨⟨0, 0, 0⟩, ⟨0, 0, 1⟩⟩] (0, 0, 0) = some (Except.ok c) ∧
          illumRGB ⟨0, 0, 1⟩ ⟨⟨0, 0, 0⟩, 0, 0, 0, 1⟩ [⟨⟨0, 0, 0⟩, ⟨0, 0, 1⟩⟩] c =
            some r ∧ rgbLE (0, 0, 0) r) ∧
      (¬(rgbLE low (0, 0, 0) ∧ rgbLE (0, 0, 0) high) →
        set_material_color ⟨0, 0, 1⟩ ⟨⟨0, 0, 0⟩, 0, 0, 0, 1⟩
          [⟨⟨0, 0, 0⟩, ⟨0, 0, 1⟩⟩] (0, 0, 0) =
            some (Except.error ⟨low, high, (0, 0, 0)⟩))) :=
  ⟨by simp,
    set_material_color_spec ⟨0, 0, 1⟩ ⟨⟨0, 0, 0⟩, 0, 0, 0, 1⟩
      [⟨⟨0, 0, 0⟩, ⟨0, 0, 1⟩⟩] (0, 0, 0) ⟨0, 0, 1⟩ normalize_unit_z (by simp)⟩

/-! ## Line-intersection lemmas (C7) -/

theorem std_det_eq_cross (a b c d : Vec2) :
    (Vec2.get_standard_form (a, b)).1 * (Vec2.get_standard_form (c, d)).2.1 -
      (Vec2.get_standard_form (c, d)).1 * (Vec2.get_standard_form (a, b)).2.1 =
      Vec2.cross (Vec2.vsub b a) (Vec2.vsub d c) := by
  unfold Vec2.get_standard_form Vec2.cross Vec2.vsub
  ring

theorem std_eval_eq_cross (a b q : Vec2) :
    (Vec2.get_standard_form (a, b)).1 * q.x + (Vec2.get_standard_form (a, b)).2.1 * q.y +
      (Vec2.get_standard_form (a, b)).2.2 =
      -Vec2.cross (Vec2.vsub b a) (Vec2.vsub q a) := by
  unfold Vec2.get_standard_form Vec2.cross Vec2.vsub
  ring

theorem gli_none (l1 l2 : ℝ × ℝ × ℝ) (h : l1.1 * l2.2.1 - l2.1 * l1.2.1 = 0) :
    Vec2.get_line_intersection l1 l2 = none := by
  unfold Vec2.get_line_intersection
  rw [if_pos h]

theorem gli_some (l1 l2 : ℝ × ℝ × ℝ) (h : l1.1 * l2.2.1 - l2.1 * l1.2.1 ≠ 0) :
    ∃ p, Vec2.get_line_intersection l1 l2 = some p ∧
      l1.1 * p.x + l1.2.1 * p.y + l1.2.2 = 0 ∧
      l2.1 * p.x + l2.2.1 * p.y + l2.2.2 = 0 := by
  unfold Vec2.get_line_intersection
  rw [if_neg h]
  refine ⟨_, rfl, ?_, ?_⟩ <;> · show _ = (0 : ℝ); field_simp; ring

theorem lines_unique (l1 l2 : ℝ × ℝ × ℝ) (p q : Vec2)
    (h : l1.1 * l2.2.1 - l2.1 * l1.2.1 ≠ 0)
    (hp1 : l1.1 * p.x + l1.2.1 * p.y + l1.2.2 = 0)
    (hp2 : l2.1 * p.x + l2.2.1 * p.y + l2.2.2 = 0)
    (hq1 : l1.1 * q.x + l1.2.1 * q.y + l1.2.2 = 0)
    (hq2 : l2.1 * q.x + l2.2.1 * q.y + l2.2.2 = 0) : q = p := by
  have h1 : l1.1 * (q.x - p.x) + l1.2.1 * (q.y - p.y) = 0 := by linear_combination hq1 - hp1
  have h2 : l2.1 * (q.x - p.x) + l2.2.1 * (q.y - p.y) = 0 := by linear_combination hq2 - hp2
  have hx : (l1.1 * l2.2.1 - l2.1 * l1.2.1) * (q.x - p.x) = 0 := by
    linear_combination l2.2.1 * h1 - l1.2.1 * h2
  have hy : (l1.1 * l2.2.1 - l2.1 * l1.2.1) * (q.y - p.y) = 0 := by
    linear_combination l1.1 * h2 - l2.1 * h1
  ext
  · have := (mul_eq_zero.mp hx).resolve_left h
    linarith
  · have := (mul_eq_zero.mp hy).resolve_left h
    linarith

/-- C7, confirmed: `_get_abcd_intersection` and `_get_ray_intersection` raise
the geometry-construction error ("rays are parallel or coincident", embedded
as `none`) exactly when the two carrying lines are parallel or coincident
(direction cross product zero); otherwise they return the unique point lying
on both carrying lines. -/
theorem line_intersections_parallel_or_unique (a b c d pa va pb vb : Vec2) :
    (Vec2.cross (Vec2.vsub b a) (Vec2.vsub d c) = 0 →
      get_abcd_intersection (a, b) (c, d) = none) ∧
    (Vec2.cross (Vec2.vsub b a) (Vec2.vsub d c) ≠ 0 →
      ∃ p, get_abcd_intersection (a, b) (c, d) = some p ∧
        onLine a b p ∧ onLine c d p ∧
        ∀ q, onLine a b q → onLine c d q → q = p) ∧
    (Vec2.cross va vb = 0 → get_ray_intersection (pa, va) (pb, vb) = none) ∧
    (Vec2.cross va vb ≠ 0 →
      ∃ p, get_ray_intersection (pa, va) (pb, vb) = some p ∧
        onLine pa (Vec2.vadd pa va) p ∧ onLine pb (Vec2.vadd pb vb) p ∧
        ∀ q, onLine pa (Vec2.vadd pa va) q → onLine pb (Vec2.vadd pb vb) q → q = p) := by
  have hray1 : Vec2.vsub (Vec2.vadd pa va) pa = va := by ext <;> simp [Vec2.vsub, Vec2.vadd]
  have hray2 : Vec2.vsub (Vec2.vadd pb vb) pb = vb := by ext <;> simp [Vec2.vsub, Vec2.vadd]
  refine ⟨?_, ?_, ?_, ?_⟩
  · intro h
    exact gli_none _ _ (by rw [std_det_eq_cross, h])
  · intro h
    obtain ⟨p, hp, hp1, hp2⟩ := gli_some (Vec2.get_standard_form (a, b))
      (Vec2.get_standard_form (c, d)) (by rw [std_det_eq_cross]; exact h)
    refine ⟨p, hp, ?_, ?_, ?_⟩
    · have := hp1
      rw [std_eval_eq_cross] at this
      unfold onLine
      linarith
    · have := hp2
      rw [std_eval_eq_cross] at this
      unfold onLine
      linarith
    · intro q hq1 hq2
      unfold onLine at hq1 hq2
      refine lines_unique _ _ p q (by rw [std_det_eq_cross]; exact h) hp1 hp2 ?_ ?_
      · rw [std_eval_eq_cross, hq1]; ring
      · rw [std_eval_eq_cross, hq2]; ring
  · intro h
    exact gli_none _ _ (by rw [std_det_eq_cross, hray1, hray2, h])
  · intro h
    obtain ⟨p, hp, hp1, hp2⟩ := gli_some
      (Vec2.get_standard_form (pa, Vec2.vadd pa va))
      (Vec2.get_standard_form (pb, Vec2.vadd pb vb))
      (by rw [std_det_eq_cross, hray1, hray2]; exact h)
    refine ⟨p, hp, ?_, ?_, ?_⟩
    · have := hp1
      rw [std_eval_eq_cross] at this
      unfold onLine
      linarith
    · have := hp2
      rw [std_eval_eq_cross] at this
      unfold onLine
      linarith
    · intro q hq1 hq2
      unfold onLine at hq1 hq2
      refine lines_unique _ _ p q
        (by rw [std_det_eq_cross, hray1, hray2]; exact h) hp1 hp2 ?_ ?_
      · rw [std_eval_eq_cross, hq1]; ring
      · rw [std_eval_eq_cross, hq2]; ring

theorem line_intersections_witness :
    get_abcd_intersection (⟨0, 0⟩, ⟨1, 0⟩) (⟨0, 1⟩, ⟨1, 1⟩) = none ∧
    (∃ p, get_abcd_intersection (⟨0, 0⟩, ⟨1, 0⟩) (⟨0, 0⟩, ⟨0, 1⟩) = some p ∧
      onLine ⟨0, 0⟩ ⟨1, 0⟩ p ∧ onLine ⟨0, 0⟩ ⟨0, 1⟩ p ∧
      ∀ q, onLine ⟨0, 0⟩ ⟨1, 0⟩ q → onLine ⟨0, 0⟩ ⟨0, 1⟩ q → q = p) ∧
    get_ray_intersection (⟨0, 0⟩, ⟨1, 0⟩) (⟨0, 1⟩, ⟨1, 0⟩) = none ∧
    (∃ p, get_ray_intersection (⟨0, 0⟩, ⟨1, 0⟩) (⟨0, 0⟩, ⟨0, 1⟩) = some p ∧
      onLine ⟨0, 0⟩ (Vec2.vadd ⟨0, 0⟩ ⟨1, 0⟩) p ∧
      onLine ⟨0, 0⟩ (Vec2.vadd ⟨0, 0⟩ ⟨0, 1⟩) p ∧
      ∀ q, onLine ⟨0, 0⟩ (Vec2.vadd ⟨0, 0⟩ ⟨1, 0⟩) q →
        onLine ⟨0, 0⟩ (Vec2.vadd ⟨0, 0⟩ ⟨0, 1⟩) q → q = p) :=
  ⟨(line_intersections_parallel_or_unique ⟨0, 0⟩ ⟨1, 0⟩ ⟨0, 1⟩ ⟨1, 1⟩
      ⟨0, 0⟩ ⟨1, 0⟩ ⟨0, 1⟩ ⟨1, 0⟩).1
    (by unfold Vec2.cross Vec2.vsub; norm_num),
   (line_intersections_parallel_or_unique ⟨0, 0⟩ ⟨1, 0⟩ ⟨0, 0⟩ ⟨0, 1⟩
      ⟨0, 0⟩ ⟨1, 0⟩ ⟨0, 1⟩ ⟨1, 0⟩).2.1
    (by unfold Vec2.cross Vec2.vsub; norm_num),
   (line_intersections_parallel_or_unique ⟨0, 0⟩ ⟨1, 0⟩ ⟨0, 1⟩ ⟨1, 1⟩
      ⟨0, 0⟩ ⟨1, 0⟩ ⟨0, 1⟩ ⟨1, 0⟩).2.2.1
    (by unfold Vec2.cross; norm_num),
   (line_intersections_parallel_or_unique ⟨0, 0⟩ ⟨1, 0⟩ ⟨0, 1⟩ ⟨1, 1⟩
      ⟨0, 0⟩ ⟨1, 0⟩ ⟨0, 0⟩ ⟨0, 1⟩).2.2.2
    (by unfold Vec2.cross; norm_num)⟩

/-! ## Beveling lemmas (C4, C8) -/

theorem bevel_foldl_eq_flatMap (s : ℝ) (l : List (Vec2 × Vec2 × Vec2)) (acc : List Vec2) :
    l.foldl (fun new_pts abc => new_pts ++ bevel_step s abc) acc =
      acc ++ l.flatMap (bevel_step s) := by
  induction l generalizing acc with
  | nil => simp
  | cons t l ih => simp [ih, List.flatMap_cons]

theorem bevel_90_turns_eq_flatMap (s : ℝ) (pts : List Vec2) :
    bevel_90_turns s pts =
      ((rotRight pts).zip (pts.zip (rotLeft pts))).flatMap (bevel_step s) := by
  unfold bevel_90_turns
  rw [bevel_foldl_eq_flatMap]
  rfl

theorem get_norm_vsub_comm (a b : Vec2) :
    Vec2.get_norm (Vec2.vsub a b) = Vec2.get_norm (Vec2.vsub b a) := by
  unfold Vec2.get_norm Vec2.vsub
  ring_nf

open Classical in
theorem bevel_step_spec (s : ℝ) (abc : Vec2 × Vec2 × Vec2) :
    bevel_step s abc =
      if right_angle_turn s abc.1 abc.2.1 abc.2.2 then
        [Vec2.vsub abc.2.1 (Vec2.vscale (unit_dir (Vec2.vsub abc.2.1 abc.1)) s),
         Vec2.vadd abc.2.1 (Vec2.vscale (unit_dir (Vec2.vsub abc.2.2 abc.2.1)) s)]
      else [abc.2.1] := by
  obtain ⟨a, b, c⟩ := abc
  unfold bevel_step
  by_cases h : right_angle_turn s a b c
  · rw [if_pos h, if_pos h]
    have hab := get_norm_vsub_comm a b
    have hbc := get_norm_vsub_comm b c
    unfold Vec2.vsub at hab hbc
    unfold Vec2.set_norm unit_dir Vec2.vscale Vec2.vadd Vec2.vsub
    rw [hab, hbc]
    simp only [List.cons.injEq, and_true]
    constructor <;> ext <;> ring
  · rw [if_neg h, if_neg h]

open Classical in
/-- C4, confirmed: `_bevel_90_turns` replaces every vertex `b` whose turn
angle passes the right-angle test with the two corner-cut points — `b` moved
`bevel_size` back along the unit direction of the incoming edge `b - a`, and
`b` moved `bevel_size` forward along the unit direction of the outgoing edge
`c - b` — and passes every other vertex through unchanged. -/
theorem bevel_90_turns_replaces_right_angles (s : ℝ) (pts : List Vec2) :
    bevel_90_turns s pts =
      ((rotRight pts).zip (pts.zip (rotLeft pts))).flatMap (fun abc =>
        if right_angle_turn s abc.1 abc.2.1 abc.2.2 then
          [Vec2.vsub abc.2.1 (Vec2.vscale (unit_dir (Vec2.vsub abc.2.1 abc.1)) s),
           Vec2.vadd abc.2.1 (Vec2.vscale (unit_dir (Vec2.vsub abc.2.2 abc.2.1)) s)]
        else [abc.2.1]) := by
  rw [bevel_90_turns_eq_flatMap]
  rw [funext (bevel_step_spec s)]

theorem flatMap_eq_map_of_forall {α β : Type} (l : List β) (f : β → List α) (g : β → α)
    (h : ∀ x ∈ l, f x = [g x]) : l.flatMap f = l.map g := by
  induction l with
  | nil => rfl
  | cons t l ih =>
    rw [List.flatMap_cons, List.map_cons, h t (by simp),
      ih fun x hx => h x (by simp [hx])]
    rfl

theorem rotRight_length {α : Type} (l : List α) : (rotRight l).length = l.length := by
  unfold rotRight
  rw [List.length_append, List.length_drop, List.length_take]
  omega

theorem rotLeft_length {α : Type} (l : List α) : (rotLeft l).length = l.length := by
  unfold rotLeft
  rw [List.length_append, List.length_drop, List.length_take]
  omega

theorem zip3_map_mid (pts : List Vec2) :
    ((rotRight pts).zip (pts.zip (rotLeft pts))).map (fun abc => abc.2.1) = pts := by
  rw [show (fun abc : Vec2 × Vec2 × Vec2 => abc.2.1) = Prod.fst ∘ Prod.snd from rfl,
    ← List.map_map, List.map_snd_zip, List.map_fst_zip]
  · rw [rotLeft_length]
  · rw [List.length_zip, rotRight_length, rotLeft_length]
    omega

/-- C8, confirmed: on a polygon none of whose vertices passes the right-angle
turn test (for instance one already beveled), `_bevel_90_turns` is the
identity — every vertex is passed through unchanged. -/
theorem bevel_90_turns_noop_without_right_angles (s : ℝ) (pts : List Vec2)
    (h : ∀ abc ∈ (rotRight pts).zip (pts.zip (rotLeft pts)),
      ¬ right_angle_turn s abc.1 abc.2.1 abc.2.2) :
    bevel_90_turns s pts = pts := by
  rw [bevel_90_turns_eq_flatMap,
    flatMap_eq_map_of_forall _ _ (fun abc => abc.2.1) fun abc habc => by
      obtain ⟨a, b, c⟩ := abc
      unfold bevel_step
      rw [if_neg (h _ habc)],
    zip3_map_mid]

theorem not_right_angle_of_dot_ne (s : ℝ) (a b c : Vec2)
    (h : Vec2.dot (Vec2.set_norm (Vec2.vsub a b) s)
      (Vec2.set_norm (Vec2.vsub b c) s) ≠ 0) : ¬ right_angle_turn s a b c := by
  unfold right_angle_turn Vec2.get_signed_angle
  intro he
  rw [Complex.arg_eq_pi_div_two_iff] at he
  exact h he.1

theorem dot_set_norm (u v : Vec2) (s t : ℝ) :
    Vec2.dot (Vec2.set_norm u s) (Vec2.set_norm v t) =
      s / Vec2.get_norm u * (t / Vec2.get_norm v * Vec2.dot u v) := by
  unfold Vec2.set_norm Vec2.vscale Vec2.dot
  ring

theorem get_norm_ne_zero (v : Vec2) (h : 0 < v.x ^ 2 + v.y ^ 2) :
    Vec2.get_norm v ≠ 0 := by
  unfold Vec2.get_norm
  exact Real.sqrt_ne_zero'.mpr h

theorem bevel_90_turns_noop_witness :
    (¬ right_angle_turn 1 ⟨1, 5⟩ ⟨0, 0⟩ ⟨3, 0⟩) ∧
    (¬ right_angle_turn 1 ⟨0, 0⟩ ⟨3, 0⟩ ⟨1, 5⟩) ∧
    (¬ right_angle_turn 1 ⟨3, 0⟩ ⟨1, 5⟩ ⟨0, 0⟩) ∧
    bevel_90_turns 1 [⟨0, 0⟩, ⟨3, 0⟩, ⟨1, 5⟩] = [⟨0, 0⟩, ⟨3, 0⟩, ⟨1, 5⟩] := by
  have h1 : ¬ right_angle_turn 1 ⟨1, 5⟩ ⟨0, 0⟩ ⟨3, 0⟩ := by
    apply not_right_angle_of_dot_ne
    rw [dot_set_norm]
    apply mul_ne_zero (div_ne_zero one_ne_zero (get_norm_ne_zero _ (by norm_num [Vec2.vsub])))
    apply mul_ne_zero (div_ne_zero one_ne_zero (get_norm_ne_zero _ (by norm_num [Vec2.vsub])))
    norm_num [Vec2.dot, Vec2.vsub]
  have h2 : ¬ right_angle_turn 1 ⟨0, 0⟩ ⟨3, 0⟩ ⟨1, 5⟩ := by
    apply not_right_angle_of_dot_ne
    rw [dot_set_norm]
    apply mul_ne_zero (div_ne_zero one_ne_zero (get_norm_ne_zero _ (by norm_num [Vec2.vsub])))
    apply mul_ne_zero (div_ne_zero one_ne_zero (get_norm_ne_zero _ (by norm_num [Vec2.vsub])))
    norm_num [Vec2.dot, Vec2.vsub]
  have h3 : ¬ right_angle_turn 1 ⟨3, 0⟩ ⟨1, 5⟩ ⟨0, 0⟩ := by
    apply not_right_angle_of_dot_ne
    rw [dot_set_norm]
    apply mul_ne_zero (div_ne_zero one_ne_zero (get_norm_ne_zero _ (by norm_num [Vec2.vsub])))
    apply mul_ne_zero (div_ne_zero one_ne_zero (get_norm_ne_zero _ (by norm_num [Vec2.vsub])))
    norm_num [Vec2.dot, Vec2.vsub]
  refine ⟨h1, h2, h3, ?_⟩
  apply bevel_90_turns_noop_without_right_angles
  rw [show (rotRight [(⟨0, 0⟩ : Vec2), ⟨3, 0⟩, ⟨1, 5⟩]).zip
      ([(⟨0, 0⟩ : Vec2), ⟨3, 0⟩, ⟨1, 5⟩].zip (rotLeft [(⟨0, 0⟩ : Vec2), ⟨3, 0⟩, ⟨1, 5⟩])) =
    [((⟨1, 5⟩ : Vec2), (⟨0, 0⟩ : Vec2), (⟨3, 0⟩ : Vec2)),
     (⟨0, 0⟩, ⟨3, 0⟩, ⟨1, 5⟩), (⟨3, 0⟩, ⟨1, 5⟩, ⟨0, 0⟩)] from rfl]
  intro abc habc
  simp only [List.mem_cons, List.not_mem_nil, or_false] at habc
  rcases habc with h | h | h <;> subst h
  · exact h1
  · exact h2
  · exact h3

/-! ## Polygon union lemmas (C5) -/

theorem unionLoop_all_negative (negative : Finset ℕ) (l : List Region) :
    ∀ (i : ℕ) (A : Region), (∀ k, k < l.length → (i + k) ∈ negative) →
    unionLoop negative i A l = spec_sub_each negative i A l := by
  induction l with
  | nil => intro i A _; rfl
  | cons p ps ih =>
    intro i A h
    have h0 : i ∈ negative := by simpa using h 0 (by simp)
    show unionLoop negative (i + 1) (if i ∈ negative then A \ p else A ∪ p) ps =
      spec_sub_each negative (i + 1) (if i ∈ negative then A \ p else A) ps
    rw [if_pos h0, if_pos h0]
    exact ih (i + 1) (A \ p) fun k hk => by
      have := h (k + 1) (by simpa using Nat.succ_lt_succ hk)
      rwa [show i + (k + 1) = i + 1 + k by omega] at this

theorem spec_pos_union_all_negative (negative : Finset ℕ) (l : List Region) :
    ∀ i : ℕ, (∀ k, k < l.length → (i + k) ∈ negative) →
    spec_pos_union negative i l = ∅ := by
  induction l with
  | nil => intro i _; rfl
  | cons p ps ih =>
    intro i h
    have h0 : i ∈ negative := by simpa using h 0 (by simp)
    show (if i ∈ negative then spec_pos_union negative (i + 1) ps
      else p ∪ spec_pos_union negative (i + 1) ps) = ∅
    rw [if_pos h0]
    exact ih (i + 1) fun k hk => by
      have := h (k + 1) (by simpa using Nat.succ_lt_succ hk)
      rwa [show i + (k + 1) = i + 1 + k by omega] at this

theorem unionLoop_eq_spec_of_sorted (negative : Finset ℕ) (l : List Region) :
    ∀ (i : ℕ) (A : Region),
    (∀ j k, j < k → k < l.length → (i + j) ∈ negative → (i + k) ∉ negative → False) →
    unionLoop negative i A l =
      spec_sub_each negative i (A ∪ spec_pos_union negative i l) l := by
  induction l with
  | nil => intro i A _; show A = A ∪ ∅; simp
  | cons p ps ih =>
    intro i A h
    by_cases h0 : i ∈ negative
    · have hall : ∀ k, k < ps.length → (i + 1 + k) ∈ negative := by
        intro k hk
        by_contra hnot
        exact h 0 (k + 1) (by omega) (by simpa using Nat.succ_lt_succ hk)
          (by simpa using h0) (by rwa [show i + (k + 1) = i + 1 + k by omega])
      have hpos : spec_pos_union negative i (p :: ps) =
          spec_pos_union negative (i + 1) ps := by
        show (if i ∈ negative then spec_pos_union negative (i + 1) ps
          else p ∪ spec_pos_union negative (i + 1) ps) = _
        rw [if_pos h0]
      have hpos0 : spec_pos_union negative (i + 1) ps = ∅ :=
        spec_pos_union_all_negative negative ps (i + 1) hall
      have hsub : spec_sub_each negative i (A ∪ spec_pos_union negative i (p :: ps))
          (p :: ps) = spec_sub_each negative (i + 1) ((A ∪ ∅) \ p) ps := by
        show spec_sub_each negative (i + 1)
          (if i ∈ negative then (A ∪ spec_pos_union negative i (p :: ps)) \ p
            else A ∪ spec_pos_union negative i (p :: ps)) ps = _
        rw [if_pos h0, hpos, hpos0]
      have hloop : unionLoop negative i A (p :: ps) =
          unionLoop negative (i + 1) (A \ p) ps := by
        show unionLoop negative (i + 1) (if i ∈ negative then A \ p else A ∪ p) ps = _
        rw [if_pos h0]
      rw [hloop, hsub, show (A ∪ ∅) \ p = A \ p by simp]
      exact unionLoop_all_negative negative ps (i + 1) (A \ p) hall
    · have hcond : ∀ j k, j < k → k < ps.length → (i + 1 + j) ∈ negative →
          (i + 1 + k) ∉ negative → False := by
        intro j k hjk hk hj hkn
        exact h (j + 1) (k + 1) (by omega) (by simpa using Nat.succ_lt_succ hk)
          (by rwa [show i + (j + 1) = i + 1 + j by omega])
          (by rwa [show i + (k + 1) = i + 1 + k by omega])
      have hpos : spec_pos_union negative i (p :: ps) =
          p ∪ spec_pos_union negative (i + 1) ps := by
        show (if i ∈ negative then spec_pos_union negative (i + 1) ps
          else p ∪ spec_pos_union negative (i + 1) ps) = _
        rw [if_neg h0]
      have hloop : unionLoop negative i A (p :: ps) =
          unionLoop negative (i + 1) (A ∪ p) ps := by
        show unionLoop negative (i + 1) (if i ∈ negative then A \ p else A ∪ p) ps = _
        rw [if_neg h0]
      have hsub : spec_sub_each negative i (A ∪ spec_pos_union negative i (p :: ps))
          (p :: ps) = spec_sub_each negative (i + 1)
            (A ∪ (p ∪ spec_pos_union negative (i + 1) ps)) ps := by
        show spec_sub_each negative (i + 1)
          (if i ∈ negative then (A ∪ spec_pos_union negative i (p :: ps)) \ p
            else A ∪ spec_pos_union negative i (p :: ps)) ps = _
        rw [if_neg h0, hpos]
      rw [hloop, hsub, ih (i + 1) (A ∪ p) hcond, Set.union_assoc]

/-- C5, counterexample to the claim as stated: with two copies of the same
nonempty region, the first flagged for subtraction, the code unions the
second copy in after the subtraction already happened, so it returns the
region itself, while the spec's formula (union of unflagged minus each
flagged) returns the empty region. -/
theorem get_polygon_union_order_cx :
    get_polygon_union [{((0 : ℝ), (0 : ℝ))}, {((0 : ℝ), (0 : ℝ))}] {0} ≠
      get_polygon_union_spec [{((0 : ℝ), (0 : ℝ))}, {((0 : ℝ), (0 : ℝ))}] {0} := by
  intro h
  have h1 : ((0 : ℝ), (0 : ℝ)) ∈
      get_polygon_union [{((0 : ℝ), (0 : ℝ))}, {((0 : ℝ), (0 : ℝ))}] {0} := by
    simp [get_polygon_union, unionLoop]
  have h2 : ((0 : ℝ), (0 : ℝ)) ∉
      get_polygon_union_spec [{((0 : ℝ), (0 : ℝ))}, {((0 : ℝ), (0 : ℝ))}] {0} := by
    simp [get_polygon_union_spec, spec_sub_each, spec_pos_union]
  rw [h] at h1
  exact h2 h1

/-- C5, amended: `get_polygon_union` folds over the polygons in input order
starting from the empty region, unioning each unflagged polygon and
subtracting each flagged polygon as it is encountered (so a flagged polygon
subtracts only from polygons appearing earlier in the input); whenever every
flagged index comes after every unflagged index, this equals the spec's
formula — the boolean union of all unflagged polygons, minus each flagged
polygon individually in input order. -/
theorem get_polygon_union_eq_spec_when_subtractions_last
    (pnt_lists : List Region) (negative : Finset ℕ)
    (h : ∀ j k, j < k → k < pnt_lists.length → j ∈ negative → k ∉ negative → False) :
    get_polygon_union pnt_lists negative = get_polygon_union_spec pnt_lists negative := by
  unfold get_polygon_union get_polygon_union_spec
  rw [unionLoop_eq_spec_of_sorted negative pnt_lists 0 ∅ (by simpa using h)]
  rw [show (∅ : Region) ∪ spec_pos_union negative 0 pnt_lists =
    spec_pos_union negative 0 pnt_lists from Set.empty_union _]

theorem get_polygon_union_eq_spec_witness :
    get_polygon_union [{((0 : ℝ), (0 : ℝ))}, {((1 : ℝ), (1 : ℝ))}] {1} =
      get_polygon_union_spec [{((0 : ℝ), (0 : ℝ))}, {((1 : ℝ), (1 : ℝ))}] {1} :=
  get_polygon_union_eq_spec_when_subtractions_last _ _ (by
    intro j k hjk hk hj hkn
    simp only [List.length_cons, List.length_nil] at hk
    have hk1 : k = 1 := by omega
    have hj0 : j = 0 := by omega
    subst hk1
    subst hj0
    simp at hj)

theorem format_number_zero : format_number 0 = ['0'] := by
  unfold format_number
  rw [show ⌊(0:ℚ) * 1000000 + 1/2⌋ = (0 : ℤ) from by norm_num]
  decide

theorem format_number_one : format_number 1 = ['1'] := by
  unfold format_number
  rw [show ⌊(1:ℚ) * 1000000 + 1/2⌋ = (1000000 : ℤ) from by norm_num]
  decide

theorem new_data_string_cx_eval :
    new_data_string_single [((0 : ℚ), (0 : ℚ)), (1, 0), (1, 1)] =
      some ['M', '0', ',', '0', ' ', 'H', '1', ' ', 'V', '1', 'Z'] := by
  unfold new_data_string_single
  rw [show [((0 : ℚ), (0 : ℚ)), (1, 0), (1, 1)].map
      (fun p => (format_number p.1, format_number p.2)) =
      [(['0'], ['0']), (['1'], ['0']), (['1'], ['1'])] from by
    simp [format_number_zero, format_number_one]]
  decide

/-- C6, counterexample to the claim as stated: for the 3-point polygon
`[(0,0), (1,0), (1,1)]` (distinct adjacent points), the serializer emits
`"M0,0 H1 V1Z"`, whose first word `"M0,0"` the reference parser treats as a
coordinate pair for the implicit `M` command, so `float("M0")` raises and the
round trip fails instead of returning the original points. -/
theorem data_string_roundtrip_cx :
    ((new_data_string_single [((0 : ℚ), (0 : ℚ)), (1, 0), (1, 1)]).bind
      get_pts_from_datastring) ≠ some [((0 : ℚ), (0 : ℚ)), (1, 0), (1, 1)] := by
  rw [new_data_string_cx_eval]
  rw [show (some ['M', '0', ',', '0', ' ', 'H', '1', ' ', 'V', '1', 'Z']).bind
    get_pts_from_datastring = none from by decide]
  simp

theorem takeWhile_append_all {p : Char → Bool} (A B : List Char) (h : A.all p = true) :
    (A ++ B).takeWhile p = A ++ B.takeWhile p := by
  induction A with
  | nil => rfl
  | cons a A ih =>
    simp only [List.all_cons, Bool.and_eq_true] at h
    simp [List.takeWhile_cons, h.1, ih h.2]

theorem dropWhile_append_all {p : Char → Bool} (A B : List Char) (h : A.all p = true) :
    (A ++ B).dropWhile p = B.dropWhile p := by
  induction A with
  | nil => rfl
  | cons a A ih =>
    simp only [List.all_cons, Bool.and_eq_true] at h
    simp only [List.cons_append, List.dropWhile_cons, h.1, ih h.2, if_true]

theorem splitWordsAux_acc (cs : List Char) : ∀ acc, acc ≠ [] →
    splitWordsAux cs acc =
      (acc ++ cs.takeWhile fun ch => ch != ' ') ::
        splitWords (cs.dropWhile fun ch => ch != ' ') := by
  induction cs with
  | nil =>
    intro acc hacc
    show (if acc.isEmpty then [] else [acc]) = (acc ++ []) :: splitWords []
    rw [if_neg (by simpa using hacc)]
    simp [splitWords, splitWordsAux]
  | cons c cs ih =>
    intro acc hacc
    by_cases hc : c = ' '
    · subst hc
      show (if (' ' : Char) = ' ' then
          if acc.isEmpty then splitWordsAux cs [] else acc :: splitWordsAux cs []
        else splitWordsAux cs (acc ++ [' '])) = _
      rw [if_pos rfl, if_neg (by simpa using hacc)]
      simp only [List.takeWhile_cons, List.dropWhile_cons,
        show ((' ' : Char) != ' ') = false from by decide]
      simp only [if_false, List.append_nil, Bool.false_eq_true]
      rfl
    · show (if c = ' ' then
          if acc.isEmpty then splitWordsAux cs [] else acc :: splitWordsAux cs []
        else splitWordsAux cs (acc ++ [c])) = _
      rw [if_neg hc, ih (acc ++ [c]) (by simp)]
      simp only [List.takeWhile_cons, List.dropWhile_cons,
        show (c != ' ') = true from by simpa using hc]
      simp [List.append_assoc]

theorem splitWords_cons (c : Char) (cs : List Char) (h : c ≠ ' ') :
    splitWords (c :: cs) =
      (c :: cs.takeWhile fun ch => ch != ' ') ::
        splitWords (cs.dropWhile fun ch => ch != ' ') := by
  show (if c = ' ' then
      if List.isEmpty [] then splitWordsAux cs [] else [] :: splitWordsAux cs []
    else splitWordsAux cs ([] ++ [c])) = _
  rw [if_neg h, List.nil_append, splitWordsAux_acc cs [c] (by simp)]
  rfl

theorem splitOnChar_shape (sep : Char) (cs : List Char) :
    ∃ ws, splitOnChar sep cs = (cs.takeWhile fun ch => ch != sep) :: ws := by
  induction cs with
  | nil => exact ⟨[], rfl⟩
  | cons c cs ih =>
    by_cases hc : c = sep
    · subst hc
      refine ⟨splitOnChar c cs, ?_⟩
      show (if c = c then [] :: splitOnChar c cs
        else match splitOnChar c cs with
          | [] => [[c]]
          | w :: ws => (c :: w) :: ws) = _
      rw [if_pos rfl]
      simp [List.takeWhile_cons]
    · obtain ⟨ws, hws⟩ := ih
      refine ⟨ws, ?_⟩
      show (if c = sep then [] :: splitOnChar sep cs
        else match splitOnChar sep cs with
          | [] => [[c]]
          | w :: ws => (c :: w) :: ws) = _
      rw [if_neg hc, hws]
      simp [List.takeWhile_cons, show (c != sep) = true from by simpa using hc]

theorem mem_of_isSubstring (needle : List Char) (hay : List Char)
    (h : isSubstring needle hay = true) : ∀ c ∈ needle, c ∈ hay := by
  induction hay with
  | nil =>
    intro c hc
    rw [show isSubstring needle [] = needle.isEmpty from rfl] at h
    rw [List.isEmpty_iff] at h
    subst h
    simp at hc
  | cons a hay ih =>
    intro c hc
    rw [show isSubstring needle (a :: hay) =
      (needle.isPrefixOf (a :: hay) || isSubstring needle hay) from rfl] at h
    rcases Bool.or_eq_true_iff.mp h with h | h
    · have hpre : needle <+: a :: hay := by
        rwa [← List.isPrefixOf_iff_prefix]
      exact hpre.sublist.subset hc
    · exact List.mem_cons_of_mem a (ih h c hc)

theorem dropTrailing_subset (p : Char → Bool) (cs : List Char) :
    ∀ c ∈ dropTrailing p cs, c ∈ cs := by
  intro c hc
  unfold dropTrailing at hc
  rw [List.mem_reverse] at hc
  have := (List.dropWhile_sublist (l := cs.reverse) p).subset hc
  rwa [List.mem_reverse] at this

theorem digitChar_ne_space_comma (n : ℕ) : digitChar n ≠ ' ' ∧ digitChar n ≠ ',' := by
  unfold digitChar
  have h : n % 10 < 10 := Nat.mod_lt _ (by norm_num)
  interval_cases hk : n % 10 <;> exact ⟨by decide, by decide⟩

theorem natDigitsRev_mem (fuel : ℕ) : ∀ (n : ℕ) (c : Char),
    c ∈ natDigitsRev fuel n → ∃ m, c = digitChar m := by
  induction fuel with
  | zero => intro n c hc; simp [natDigitsRev] at hc
  | succ fuel ih =>
    intro n c hc
    unfold natDigitsRev at hc
    by_cases hn : n < 10
    · rw [if_pos hn] at hc
      simp at hc
      exact ⟨n, hc⟩
    · rw [if_neg hn] at hc
      rcases List.mem_cons.mp hc with h | h
      · exact ⟨n % 10, h⟩
      · exact ih (n / 10) c h

theorem natToChars_mem (n : ℕ) (c : Char) (hc : c ∈ natToChars n) :
    ∃ m, c = digitChar m := by
  unfold natToChars at hc
  rw [List.mem_reverse] at hc
  exact natDigitsRev_mem _ _ _ hc

theorem format_number_no_space_comma (q : ℚ) :
    ∀ c ∈ format_number q, c ≠ ' ' ∧ c ≠ ',' := by
  intro c hc
  unfold format_number at hc
  have hc2 := dropTrailing_subset _ _ _ hc
  have hc3 := dropTrailing_subset _ _ _ hc2
  simp only [List.mem_append, List.mem_cons] at hc3
  rcases hc3 with (h | h) | h | h
  · have : c = '-' := by
      by_cases hneg : (⌊q * 1000000 + 1 / 2⌋ : ℤ) < 0
      · rw [if_pos hneg] at h; simpa using h
      · rw [if_neg hneg] at h; simp at h
    subst this
    exact ⟨by decide, by decide⟩
  · obtain ⟨m, rfl⟩ := natToChars_mem _ _ h
    exact digitChar_ne_space_comma m
  · subst h
    exact ⟨by decide, by decide⟩
  · unfold padZeros at h
    rcases List.mem_append.mp h with h | h
    · rw [List.eq_of_mem_replicate h]
      exact ⟨by decide, by decide⟩
    · obtain ⟨m, rfl⟩ := natToChars_mem _ _ h
      exact digitChar_ne_space_comma m

theorem parseFloat_head_M (t : List Char) : parseFloat ('M' :: t) = none := by
  unfold parseFloat
  have h1 : (('M' :: t).head? = some '-') = False := by simp
  have h2 : (('M' :: t).head? = some '+') = False := by simp
  simp only [h1, h2, if_false, false_or]
  obtain ⟨ws, hws⟩ := splitOnChar_shape '.' ('M' :: t)
  rw [show ('M' :: t).takeWhile (fun ch => ch != '.') =
    'M' :: t.takeWhile (fun ch => ch != '.') from by
      simp [List.takeWhile_cons]] at hws
  rw [hws]
  have hM : Char.isDigit 'M' = false := by decide
  rcases ws with _ | ⟨fp, ws⟩
  · simp [List.all_cons, hM]
  · rcases ws with _ | ⟨w2, ws⟩
    · simp [List.all_cons, hM]
    · rfl

theorem data_string_step_m_inv (P : List Char) (hP : ∃ P2, P = 'M' :: P2)
    (revcmds : List (List Char)) (p : (List Char × List Char) × (List Char × List Char))
    (h : ∃ cs t, revcmds = cs ++ [P ++ t]) :
    ∃ cs t, data_string_step revcmds p = cs ++ [P ++ t] := by
  obtain ⟨P2, rfl⟩ := hP
  obtain ⟨cs, t, rfl⟩ := h
  rcases cs with _ | ⟨c0, cs⟩
  · show ∃ cs t2,
      (if p.1.1 = p.2.1 then
        if (('M' :: P2) ++ t).head? = some 'V' then [('V' :: p.2.2)]
        else [('V' :: p.2.2), ('M' :: P2) ++ t]
      else if p.1.2 = p.2.2 then
        if (('M' :: P2) ++ t).head? = some 'H' then [('H' :: p.2.1)]
        else [('H' :: p.2.1), ('M' :: P2) ++ t]
      else if (('M' :: P2) ++ t).head? = some 'M' ∨ (('M' :: P2) ++ t).head? = some 'L'
        then [(('M' :: P2) ++ t) ++ ' ' :: p.2.1 ++ ',' :: p.2.2]
      else [('L' :: p.2.1 ++ ',' :: p.2.2), ('M' :: P2) ++ t]) =
        cs ++ [('M' :: P2) ++ t2]
    have hhead : (('M' :: P2) ++ t).head? = some 'M' := rfl
    split_ifs with h1 h2 h3 h4 h5 <;>
      first
      | (exact absurd hhead (by rw [h2]; simp))
      | (exact absurd hhead (by rw [h4]; simp))
      | exact ⟨[_], t, rfl⟩
      | exact ⟨[], t ++ ' ' :: p.2.1 ++ ',' :: p.2.2, by simp⟩
  · show ∃ cs2 t2,
      (if p.1.1 = p.2.1 then
        if c0.head? = some 'V' then ('V' :: p.2.2) :: (cs ++ [('M' :: P2) ++ t])
        else ('V' :: p.2.2) :: c0 :: (cs ++ [('M' :: P2) ++ t])
      else if p.1.2 = p.2.2 then
        if c0.head? = some 'H' then ('H' :: p.2.1) :: (cs ++ [('M' :: P2) ++ t])
        else ('H' :: p.2.1) :: c0 :: (cs ++ [('M' :: P2) ++ t])
      else if c0.head? = some 'M' ∨ c0.head? = some 'L'
        then (c0 ++ ' ' :: p.2.1 ++ ',' :: p.2.2) :: (cs ++ [('M' :: P2) ++ t])
      else ('L' :: p.2.1 ++ ',' :: p.2.2) :: c0 :: (cs ++ [('M' :: P2) ++ t])) =
        cs2 ++ [('M' :: P2) ++ t2]
    split_ifs <;>
      first
      | exact ⟨_ :: cs, t, rfl⟩
      | exact ⟨_ :: _ :: cs, t, rfl⟩

theorem data_string_fold_m_inv (P : List Char) (hP : ∃ P2, P = 'M' :: P2)
    (pairs : List ((List Char × List Char) × (List Char × List Char))) :
    ∀ revcmds, (∃ cs t, revcmds = cs ++ [P ++ t]) →
    ∃ cs t, pairs.foldl data_string_step revcmds = cs ++ [P ++ t] := by
  induction pairs with
  | nil => intro revcmds h; exact h
  | cons p pairs ih =>
    intro revcmds h
    exact ih _ (data_string_step_m_inv P hP revcmds p h)

theorem joinWords_cons (w : List Char) (ws : List (List Char)) :
    ∃ u, joinWords (w :: ws) = w ++ u := by
  cases ws with
  | nil => exact ⟨[], by simp [joinWords]⟩
  | cons w2 ws => exact ⟨' ' :: joinWords (w2 :: ws), rfl⟩

theorem mem_remove_identical (values : List (List Char × List Char))
    (v : List Char × List Char) (h : v ∈ remove_identical_adjacent values) :
    v ∈ values := by
  unfold remove_identical_adjacent at h
  split_ifs at h with h1 h2
  · exact h
  · exact List.take_subset 1 values h
  · obtain ⟨pr, hpr, rfl⟩ := List.mem_map.mp h
    exact (List.mem_zip (List.mem_filter.mp hpr).1).1

theorem remove_identical_ne_nil (values : List (List Char × List Char))
    (h : values ≠ []) : remove_identical_adjacent values ≠ [] := by
  unfold remove_identical_adjacent
  split_ifs with h1 h2
  · exact h
  · rcases values with _ | ⟨v, vs⟩
    · exact absurd rfl h
    · simp
  · exact h2

theorem new_data_string_shape (pts : List (ℚ × ℚ)) (h : pts ≠ []) :
    ∃ (a : ℚ) (r : List Char),
      new_data_string_single pts = some ('M' :: (format_number a ++ ',' :: r)) := by
  unfold new_data_string_single
  have hmapne : pts.map (fun p => (format_number p.1, format_number p.2)) ≠ [] := by
    simpa using h
  rcases hrm : remove_identical_adjacent
      (pts.map fun p => (format_number p.1, format_number p.2)) with _ | ⟨t0, rest⟩
  · exact absurd hrm (remove_identical_ne_nil _ hmapne)
  · have ht0 : t0 ∈ pts.map fun p => (format_number p.1, format_number p.2) :=
      mem_remove_identical _ _ (by rw [hrm]; exact List.mem_cons_self t0 rest)
    obtain ⟨pt, hpt, hfmt⟩ := List.mem_map.mp ht0
    obtain ⟨cs, t, hfold⟩ := data_string_fold_m_inv ('M' :: t0.1 ++ ',' :: t0.2)
      ⟨t0.1 ++ ',' :: t0.2, rfl⟩ ((t0 :: rest).zip rest)
      [('M' :: t0.1 ++ ',' :: t0.2)] ⟨[], [], by simp⟩
    obtain ⟨u, hjw⟩ := joinWords_cons (('M' :: t0.1 ++ ',' :: t0.2) ++ t) cs.reverse
    refine ⟨pt.1, t0.2 ++ t ++ u ++ ['Z'], ?_⟩
    simp only [hrm]
    rw [hfold]
    have hrev : (cs ++ [('M' :: t0.1 ++ ',' :: t0.2) ++ t]).reverse =
        (('M' :: t0.1 ++ ',' :: t0.2) ++ t) :: cs.reverse := by
      simp
    rw [hrev, hjw]
    have hx : t0.1 = format_number pt.1 := by rw [← hfmt]
    rw [hx]
    simp [List.append_assoc]

theorem parse_step_m_fused (x0 tail : List Char)
    (hxcomma : x0.all (fun ch => ch != ',') = true) :
    parse_step (['M'], []) ('M' :: (x0 ++ ',' :: tail)) = none := by
  have hcomma_mem : ',' ∈ 'M' :: (x0 ++ ',' :: tail) := by simp
  have hsub : ¬ (isSubstring ('M' :: (x0 ++ ',' :: tail)) ['M', 'L', 'H', 'V', 'Z'] = true) := by
    intro hb
    have := mem_of_isSubstring _ _ hb ',' hcomma_mem
    simp at this
  unfold parse_step
  rw [if_neg hsub, if_pos (by decide : isSubstring ['M'] ['M', 'L'] = true)]
  obtain ⟨ws, hsp⟩ := splitOnChar_shape ',' ('M' :: (x0 ++ ',' :: tail))
  have hfirst : ('M' :: (x0 ++ ',' :: tail)).takeWhile (fun ch => ch != ',') =
      'M' :: x0 := by
    rw [show ('M' :: (x0 ++ ',' :: tail)).takeWhile (fun ch => ch != ',') =
      'M' :: (x0 ++ ',' :: tail).takeWhile (fun ch => ch != ',') from by
        simp [List.takeWhile_cons]]
    rw [takeWhile_append_all _ _ hxcomma]
    simp [List.takeWhile_cons]
  rw [hfirst] at hsp
  rw [hsp]
  rcases ws with _ | ⟨ys, ws⟩
  · rfl
  · rcases ws with _ | ⟨w2, ws⟩
    · show (match parseFloat ('M' :: x0), parseFloat ys with
        | some x, some y =>
          some ((['M'], ([] : List (ℚ × ℚ))).1, (['M'], ([] : List (ℚ × ℚ))).2 ++ [(x, y)])
        | _, _ => none) = none
      rw [parseFloat_head_M]
    · rfl

/-- C6, amended: for every nonempty polygon, the serializer succeeds but
re-parsing its output with the reference parser always fails: the serializer
fuses command letters with coordinates (e.g. `"M0,0 H1 V1Z"`) while the
parser only recognizes stand-alone command words, so the first word
`"M<x>,<y>"` is consumed as a coordinate pair and `float("M<x>")` raises. -/
theorem data_string_roundtrip_always_fails (pts : List (ℚ × ℚ)) (h : pts ≠ []) :
    ∃ s, new_data_string_single pts = some s ∧ get_pts_from_datastring s = none := by
  obtain ⟨a, r, hser⟩ := new_data_string_shape pts h
  refine ⟨_, hser, ?_⟩
  have hx := format_number_no_space_comma a
  have hxall : (format_number a).all (fun ch => ch != ' ') = true := by
    rw [List.all_eq_true]
    intro c hc
    simpa using (hx c hc).1
  have hxcomma : (format_number a).all (fun ch => ch != ',') = true := by
    rw [List.all_eq_true]
    intro c hc
    simpa using (hx c hc).2
  unfold get_pts_from_datastring
  rw [splitWords_cons 'M' _ (by decide),
    show (format_number a ++ ',' :: r).takeWhile (fun ch => ch != ' ') =
      format_number a ++ ',' :: r.takeWhile (fun ch => ch != ' ') from by
        rw [takeWhile_append_all _ _ hxall]
        simp [List.takeWhile_cons],
    List.foldlM_cons, parse_step_m_fused _ _ hxcomma]
  rfl

theorem data_string_roundtrip_always_fails_witness :
    ([((3 : ℚ), (7 : ℚ))] ≠ ([] : List (ℚ × ℚ))) ∧
    ∃ s, new_data_string_single [((3 : ℚ), (7 : ℚ))] = some s ∧
      get_pts_from_datastring s = none :=
  ⟨by simp, data_string_roundtrip_always_fails [((3 : ℚ), (7 : ℚ))] (by simp)⟩
